import Mathlib

/-!
# hideproc: hidden-process registry, enumeration filter and control channel

A shallow embedding of `main.c`.

* The hash table `hidden_proc` (`DEFINE_HASHTABLE(hidden_proc, 4)`) is a function from the
  16 bucket indices to the bucket's chain, head first.  A `pid_node_t` carries nothing but
  its `id`, so a chain is a list of ids.
* Functions of the kernel that the module calls but does not define (`hash_min`, `kstrtol`,
  `pid_task(find_vpid(..))`, the original `find_ge_pid`) are parameters.
* `char` buffers are lists of characters, pointers into `message` are indices.
* `int` arithmetic that can leave the 32-bit range is wrapped explicitly (`to_int`).
* `kmalloc` is assumed to succeed (the source does not test its result).
* Reads and writes outside an array are not given a meaning: `memchr` leaving `message`
  ends the run of the write path as a `fault`, `sprintf` overrunning the local array of
  `device_read` makes the read `none`.
* Loops that the source does not bound take an iteration budget; the theorems show which
  budget is enough.
-/

namespace HideProc

/-! ## Basic types and constants -/

/-- Process identifiers: `pid_t`, a 32-bit signed `int`. -/
abbrev pid_t := Int

/-- The only member of `enum RETURN_CODE`. -/
def SUCCESS : Int := 0

/-- Error number `ENOENT`. -/
def ENOENT : Int := 2

/-- Error number `EAGAIN`. -/
def EAGAIN : Int := 11

/-- Error number `EINVAL`. -/
def EINVAL : Int := 22

/-- Conversion of an integer value to `int` (32 bits, two's complement). -/
def to_int (x : Int) : Int := (x + 2 ^ 31) % 2 ^ 32 - 2 ^ 31

/-- The string terminator. -/
def NUL : Char := Char.ofNat 0

/-- The part of a `task_struct` the module reads: `tsk->parent` (possibly `NULL`) and,
through it, `tsk->parent->pid`. -/
structure task_struct where
  parent : Option pid_t
  deriving DecidableEq

/-- Kernel services used by the module and defined outside it. -/
structure Kernel where
  /-- Bucket index computed by `hash_min(key, HASH_BITS(hidden_proc))`. -/
  hash_min : pid_t → Fin 16
  /-- Result of `kstrtol(s, 10, &res)` on a C string: `some v` when it stores `v` and
  returns 0, `none` when it fails and leaves `res` untouched. -/
  kstrtol : List Char → Option Int
  /-- Result of `pid_task(find_vpid(nr), PIDTYPE_PID)`: `none` for a `NULL` task. -/
  pid_task : pid_t → Option task_struct

/-! ## The hidden-id registry -/

/-- The table `hidden_proc`: 16 chains of nodes, each node given by its `id`. -/
abbrev Table := Fin 16 → List pid_t

/-- The table as `DEFINE_HASHTABLE` initialises it. -/
def hash_init : Table := fun _ => []

/-- The order in which `hash_for_each_safe` visits the nodes: bucket 0 to bucket 15,
each chain from its head. -/
def hash_for_each (t : Table) : List pid_t := (List.finRange 16).flatMap t

/-- Macro `hash_empty`: every bucket is empty. -/
def hash_empty (t : Table) : Bool := (List.finRange 16).all (fun b => (t b).isEmpty)

/-- Macro `hash_add`: the node is linked at the head of the bucket of its key. -/
def hash_add (K : Kernel) (t : Table) (id : pid_t) : Table :=
  fun b => if b = K.hash_min id then id :: t b else t b

/-- A `hash_for_each_safe` loop whose body is `if (c) { hash_del(..); kfree(..); }`:
every node satisfying `c` is unlinked, the others stay where they are. -/
def hash_del_if (c : pid_t → Bool) (t : Table) : Table :=
  fun b => (t b).filter (fun id => !c id)

/-- Function `is_hidden_proc`: scan of all nodes, `true` at the first one with the id. -/
def is_hidden_proc (t : Table) (pid : pid_t) : Bool :=
  (hash_for_each t).any (fun id => id == pid)

/-- Function `hide_process`: return value and table afterwards. -/
def hide_process (K : Kernel) (t : Table) (pid : pid_t) : Int × Table :=
  if is_hidden_proc t pid then (-EINVAL, t)
  else (SUCCESS, hash_add K t pid)

/-- Function `unhide_process`: return value and table afterwards. -/
def unhide_process (t : Table) (pid : pid_t) : Int × Table :=
  if hash_empty t then (-ENOENT, t)
  else if pid = -1 then (SUCCESS, hash_del_if (fun _ => true) t)
  else (SUCCESS, hash_del_if (fun id => id == pid) t)

/-! ## The enumeration filter -/

/-- The loop of `hook_find_ge_pid`.  `real` is the saved original function, a `struct pid`
is given by its number `pid->numbers->nr`, and the first argument bounds the number of
times the loop body (one more call of `real`) may run; `none` means that this bound was
reached with the loop condition still true. -/
def hook_find_ge_pid_loop (real : Int → Option pid_t) (t : Table) :
    Nat → Option pid_t → Option (Option pid_t)
  | _, none => some none
  | 0, some nr => if is_hidden_proc t nr then none else some (some nr)
  | fuel + 1, some nr =>
    if is_hidden_proc t nr then hook_find_ge_pid_loop real t fuel (real (to_int (nr + 1)))
    else some (some nr)

/-- Function `hook_find_ge_pid` (the namespace argument is passed on unchanged and is part
of `real`). -/
def hook_find_ge_pid (fuel : Nat) (real : Int → Option pid_t) (t : Table) (nr : Int) :
    Option (Option pid_t) :=
  hook_find_ge_pid_loop real t fuel (real nr)

/-- The original search as the enumeration contract describes it: over the ascending
sequence `S` of live ids, the first (hence smallest) id that is at least `nr`. -/
def real_find_ge_pid (S : List pid_t) (nr : Int) : Option pid_t :=
  S.find? (fun s => decide (nr ≤ s))

/-- An enumeration through a search function `next`: call it, report the id found and
call it again with that id plus one, until it finds nothing.  The first argument bounds
the number of calls; `none` means the bound was reached (also when a call gave no result). -/
def enumerate (next : Int → Option (Option pid_t)) : Nat → Int → Option (List pid_t)
  | 0, _ => none
  | fuel + 1, nr =>
    match next nr with
    | none => none
    | some none => some []
    | some (some p) => (enumerate next fuel (p + 1)).map (fun l => p :: l)

/-! ## The control channel: read side -/

/-- Macro `MAX_MESSAGE_SIZE`: `sizeof("pid: %d\n") + 4`, the `sizeof` counting the
terminator. -/
def MAX_MESSAGE_SIZE : Nat := ("pid: %d\n".length + 1) + 4

/-- Conversion `%d` of an `int`. -/
def put_dec (id : Int) : List Char :=
  if id < 0 then '-' :: Nat.toDigits 10 id.natAbs else Nat.toDigits 10 id.toNat

/-- The characters `sprintf(message, OUTPUT_BUFFER_FORMAT, id)` produces before the
terminator. -/
def sprintf_pid (id : pid_t) : List Char := "pid: ".toList ++ put_dec id ++ ['\n']

/-- The loop of `device_read` over the nodes still to visit, with the bytes copied to the
user buffer so far and the current `*offset`.  `none`: `sprintf` wrote past the end of the
array `message` (the line and its terminator need more than `MAX_MESSAGE_SIZE` bytes). -/
def device_read_loop : List pid_t → List Char → Int → Option (List Char × Int)
  | [], out, offset => some (out, offset)
  | id :: rest, out, offset =>
    let message := sprintf_pid id
    if message.length + 1 ≤ MAX_MESSAGE_SIZE then
      device_read_loop rest (out ++ message) (offset + message.length)
    else none

/-- Function `device_read`: return value, bytes copied to `buffer` (from `buffer[0]` on, the
offset being 0 when anything is copied) and `*offset` afterwards. -/
def device_read (t : Table) (_len : Nat) (offset : Int) : Option (Int × List Char × Int) :=
  if offset ≠ 0 then some (0, [], offset)
  else (device_read_loop (hash_for_each t) [] offset).map (fun r => (r.2, r.1, r.2))

/-! ## The control channel: write side -/

/-- How a run of the write path ends. -/
inductive Outcome (α : Type) where
  /-- The code returned normally. -/
  | done : α → Outcome α
  /-- A call of `memchr` read past the end of the allocation of `message`; the table is
  the registry at that moment. -/
  | fault : Table → Outcome α
  /-- The iteration bound of the embedding was reached. -/
  | timeout : Outcome α

/-- Length of the C string at the start of `s`. -/
def strlen (s : List Char) : Nat := (s.takeWhile (fun c => c != NUL)).length

/-- The C string that starts at index `p` of `mem`. -/
def cstr (mem : List Char) (p : Nat) : List Char :=
  (mem.drop p).takeWhile (fun c => c != NUL)

/-- Function `memchr(p, c, n)` where `mem` holds the bytes from `p` to the end of the
allocation: `some (some k)` when `p[k]` is the first `c` among the first `n` bytes,
`some none` when there is none, `none` when the scan leaves the allocation. -/
def memchr : List Char → Char → Nat → Option (Option Nat)
  | _, _, 0 => some none
  | [], _, _ + 1 => none
  | x :: xs, c, n + 1 =>
    if x = c then some (some 0) else (memchr xs c n).map (fun r => r.map (fun k => k + 1))

/-- The pointer difference `end - ptr` as the `size_t` argument of `memchr`. -/
def size_t_diff (end_ ptr : Nat) : Nat :=
  if ptr ≤ end_ then end_ - ptr else 2 ^ 64 - (ptr - end_)

/-- The calls `if (tsk->parent) handler(tsk->parent->pid); handler(pid);`. -/
def call_handlers (handler : Table → pid_t → Int × Table) (tsk : task_struct) (pid : Int)
    (t : Table) : Table :=
  let t1 := match tsk.parent with
    | some ppid => (handler t ppid).2
    | none => t
  (handler t1 (to_int pid)).2

/-- One pass through the loop body below `*qtr = '\0'`, for a token that is followed by a
comma: `kstrtol` on the token (the local `pid` keeps its value when it fails), the task
lookup, and the handler calls when a task is found.  Gives the new `pid` and registry. -/
def token_step (K : Kernel) (handler : Table → pid_t → Int × Table) (tok : List Char)
    (pid : Int) (t : Table) : Int × Table :=
  let pid1 := (K.kstrtol tok).getD pid
  match K.pid_task (to_int pid1) with
  | none => (pid1, t)
  | some tsk => (pid1, call_handlers handler tsk pid1 t)

/-- The branch `if (!qtr) { ... break; }` for the last token. -/
def token_last (K : Kernel) (cmd : List Char) (handler : Table → pid_t → Int × Table)
    (tok : List Char) (pid : Int) (t : Table) : Table :=
  let pid1 := (K.kstrtol tok).getD pid
  match K.pid_task (to_int pid1) with
  | none =>
    if cmd.take 3 = "del".toList ∧ pid1 = -1 then (handler t (to_int pid1)).2 else t
  | some tsk => call_handlers handler tsk pid1 t

/-- The `while (1)` loop of `device_write_handler`.  State: the bytes of `message`, the
index `ptr`, the local `pid` and the registry; `end_` is the index `end`.  The first
argument bounds the number of iterations. -/
def device_write_handler_loop (K : Kernel) (cmd : List Char)
    (handler : Table → pid_t → Int × Table) (end_ : Nat) :
    Nat → List Char → Nat → Int → Table → Outcome Table
  | 0, _, _, _, _ => Outcome.timeout
  | fuel + 1, message, ptr, pid, t =>
    match memchr (message.drop ptr) ',' (size_t_diff end_ ptr) with
    | none => Outcome.fault t
    | some none => Outcome.done (token_last K cmd handler (cstr message ptr) pid t)
    | some (some k) =>
      let qtr := ptr + k
      let message1 := message.set qtr NUL
      let r := token_step K handler (cstr message1 ptr) pid t
      device_write_handler_loop K cmd handler end_ fuel message1 (qtr + 1) r.1 r.2

/-- Function `device_write_handler`.  `pid0` is the value the uninitialised local `pid`
happens to hold. -/
def device_write_handler (K : Kernel) (pid0 : Int) (message cmd : List Char)
    (handler : Table → pid_t → Int × Table) (t : Table) : Outcome Table :=
  device_write_handler_loop K cmd handler (strlen message) (message.length + 1) message
    (strlen cmd + 1) pid0 t

/-- The buffer `message` after `kmalloc(len + 1)`, `memset` and `copy_from_user`: the
first `len` bytes of the user buffer (as far as it is readable) and zeros up to `len + 1`
bytes. -/
def copy_from_user (buffer : List Char) (len : Nat) : List Char :=
  buffer.take len ++ List.replicate (len + 1 - (buffer.take len).length) NUL

/-- Function `device_write`: return value and registry afterwards.  The assignment
`*offset = len` on the accepted path touches neither and is left out. -/
def device_write (K : Kernel) (pid0 : Int) (t : Table) (buffer : List Char) (len : Nat) :
    Outcome (Int × Table) :=
  if len < 3 ∧ len < 3 then Outcome.done (-EAGAIN, t)
  else if 5 ≤ len then
    let message := copy_from_user buffer len
    if message.take 3 = "add".toList then
      match device_write_handler K pid0 message "add".toList (hide_process K) t with
      | Outcome.done t1 => Outcome.done ((len : Int), t1)
      | Outcome.fault t1 => Outcome.fault t1
      | Outcome.timeout => Outcome.timeout
    else if message.take 3 = "del".toList then
      match device_write_handler K pid0 message "del".toList unhide_process t with
      | Outcome.done t1 => Outcome.done ((len : Int), t1)
      | Outcome.fault t1 => Outcome.fault t1
      | Outcome.timeout => Outcome.timeout
    else Outcome.done (-EAGAIN, t)
  else Outcome.done (-EAGAIN, t)

/-! ## A concrete kernel, for evaluating the definitions -/

/-- Value of a decimal digit. -/
def digit_val (c : Char) : Option Nat :=
  if '0' ≤ c ∧ c ≤ '9' then some (c.toNat - '0'.toNat) else none

/-- Value of a non-empty string of decimal digits. -/
def parse_digits : List Char → Nat → Option Nat
  | [], acc => some acc
  | c :: cs, acc =>
    match digit_val c with
    | none => none
    | some d => parse_digits cs (acc * 10 + d)

/-- A decimal `kstrtol`: optional sign, at least one digit, optional final newline, the
value within the range of `long`. -/
def kstrtol_dec (s : List Char) : Option Int :=
  let neg := s.head? = some '-'
  let s1 := if neg then s.drop 1 else s
  let s2 := if s1.head? = some '+' then s1.drop 1 else s1
  let s3 := if s2.getLast? = some '\n' then s2.dropLast else s2
  if s3 = [] then none
  else match parse_digits s3 0 with
    | none => none
    | some v =>
      if neg then (if v ≤ 2 ^ 63 then some (-(v : Int)) else none)
      else (if v < 2 ^ 63 then some (v : Int) else none)

/-- The function `hash_32(val, 4)` of `linux/hash.h`. -/
def hash_32 (id : pid_t) : Fin 16 :=
  ⟨((id % 2 ^ 32).toNat * 0x61C88647 % 2 ^ 32 / 2 ^ 28) % 16, Nat.mod_lt _ (by decide)⟩

/-- A kernel with the given process table. -/
def kernel_with (procs : pid_t → Option task_struct) : Kernel :=
  { hash_min := hash_32, kstrtol := kstrtol_dec, pid_task := procs }

/-- The process table of the example "add 5,9,13": 5, 9 and 13 are live, 9 has parent 2. -/
def procs_example (nr : pid_t) : Option task_struct :=
  if nr = 9 then some { parent := some 2 }
  else if nr = 5 ∨ nr = 13 then some { parent := none }
  else none

/-! ## The write loop seen token by token -/

/-- The tokens joined by commas. -/
def join_commas : List (List Char) → List Char
  | [] => []
  | [tok] => tok
  | tok :: toks => tok ++ ',' :: join_commas toks

/-- The tokens of a payload: its pieces between the commas. -/
def split_commas : List Char → List (List Char)
  | [] => [[]]
  | c :: cs =>
    if c = ',' then [] :: split_commas cs
    else match split_commas cs with
      | [] => [[c]]
      | tok :: toks => (c :: tok) :: toks

/-- The effect of the loop on a list of tokens: `token_step` for each token that has a
comma after it, `token_last` for the last one. -/
def run_tokens (K : Kernel) (cmd : List Char) (handler : Table → pid_t → Int × Table) :
    List (List Char) → Int → Table → Table
  | [], _, t => t
  | [tok], pid, t => token_last K cmd handler tok pid t
  | tok :: toks, pid, t =>
    run_tokens K cmd handler toks (token_step K handler tok pid t).1
      (token_step K handler tok pid t).2

/-- The registry reached from the empty table by hiding the given ids one after the
other. -/
def table_of (K : Kernel) (ids : List pid_t) : Table :=
  ids.foldl (fun t id => (hide_process K t id).2) hash_init

/-- The registry a run leaves behind, when the run ends. -/
def Outcome.registry {α : Type} (proj : α → Table) : Outcome α → Option Table
  | Outcome.done a => some (proj a)
  | Outcome.fault t => some t
  | Outcome.timeout => none

/-! ## The interception engine -/

/-- The saved registers `struct pt_regs`: the instruction pointer `ip` and the remaining
registers, whose layout is the kernel's. -/
structure pt_regs (R : Type) where
  ip : Nat
  rest : R

/-- The members of `struct ftrace_hook`.  `orig` is the value stored in the location
`hook->orig` points to (the variable `real_find_ge_pid`); `ops_func` tells whether
`hook->ops.func` is `hook_ftrace_thunk`, `ops_flags` whether `hook->ops.flags` holds the
three flags `hook_install` sets. -/
structure ftrace_hook where
  name : String
  func : Nat
  orig : Nat
  address : Nat
  ops_func : Bool
  ops_flags : Bool
  deriving DecidableEq

/-- A call of the ftrace interface. -/
inductive ftrace_call where
  | set_filter_ip (ip : Nat) (remove : Bool) : ftrace_call
  | register_function : ftrace_call
  | unregister_function : ftrace_call
  deriving DecidableEq

/-- The state of ftrace for `hook->ops`: whether the filter on the hooked address is set,
whether the trampoline is registered, and the calls made so far (latest last). -/
structure ftrace_state where
  filter : Bool
  registered : Bool
  calls : List ftrace_call
  deriving DecidableEq

/-- The outcomes of the kernel calls of the engine: the address `kallsyms_lookup_name`
gives for a name (0 when the symbol is unknown), and the error codes of
`ftrace_set_filter_ip` with `remove = 0`, of `ftrace_set_filter_ip` with `remove = 1`, of
`register_ftrace_function` and of `unregister_ftrace_function` (0 for success). -/
structure ftrace_env where
  kallsyms_lookup_name : String → Nat
  set_filter_err : Int
  remove_filter_err : Int
  register_err : Int
  unregister_err : Int

/-- Function `hook_resolve_addr`. -/
def hook_resolve_addr (env : ftrace_env) (hook : ftrace_hook) : Int × ftrace_hook :=
  let address := env.kallsyms_lookup_name hook.name
  if address = 0 then (-ENOENT, { hook with address := address })
  else (0, { hook with address := address, orig := address })

/-- Function `hook_ftrace_thunk`; `within_module p` is `within_module(p, THIS_MODULE)`. -/
def hook_ftrace_thunk {R : Type} (within_module : Nat → Bool) (hook : ftrace_hook)
    (_ip parent_ip : Nat) (regs : pt_regs R) : pt_regs R :=
  if !within_module parent_ip then { regs with ip := hook.func } else regs

/-- Kernel function `ftrace_set_filter_ip(&hook->ops, ip, remove, 0)`: it returns the
error code the environment gives; when that is 0 the filter is set (`remove = 0`) or
cleared (`remove = 1`), otherwise it is left as it was. -/
def ftrace_set_filter_ip (env : ftrace_env) (s : ftrace_state) (ip : Nat) (remove : Bool) :
    Int × ftrace_state :=
  let err := if remove then env.remove_filter_err else env.set_filter_err
  let s1 := { s with calls := s.calls ++ [ftrace_call.set_filter_ip ip remove] }
  if err = 0 then (err, { s1 with filter := !remove }) else (err, s1)

/-- Kernel function `register_ftrace_function(&hook->ops)`: 0 and the trampoline
registered, or an error and no change. -/
def register_ftrace_function (env : ftrace_env) (s : ftrace_state) : Int × ftrace_state :=
  let s1 := { s with calls := s.calls ++ [ftrace_call.register_function] }
  if env.register_err = 0 then (0, { s1 with registered := true })
  else (env.register_err, s1)

/-- Kernel function `unregister_ftrace_function(&hook->ops)`: 0 and the trampoline no
longer registered, or an error and no change. -/
def unregister_ftrace_function (env : ftrace_env) (s : ftrace_state) :
    Int × ftrace_state :=
  let s1 := { s with calls := s.calls ++ [ftrace_call.unregister_function] }
  if env.unregister_err = 0 then (0, { s1 with registered := false })
  else (env.unregister_err, s1)

/-- Function `hook_install`: return value, the hook and the ftrace state afterwards. -/
def hook_install (env : ftrace_env) (hook : ftrace_hook) (s : ftrace_state) :
    Int × ftrace_hook × ftrace_state :=
  let r := hook_resolve_addr env hook
  if r.1 ≠ 0 then (r.1, r.2, s)
  else
    let hook1 := { r.2 with ops_func := true, ops_flags := true }
    let f := ftrace_set_filter_ip env s hook1.address false
    if f.1 ≠ 0 then (f.1, hook1, f.2)
    else
      let g := register_ftrace_function env f.2
      if g.1 ≠ 0 then (g.1, hook1, (ftrace_set_filter_ip env g.2 hook1.address true).2)
      else (0, hook1, g.2)

/-- Function `hook_remove`: both calls are made, their errors are only printed. -/
def hook_remove (env : ftrace_env) (hook : ftrace_hook) (s : ftrace_state) : ftrace_state :=
  let u := unregister_ftrace_function env s
  (ftrace_set_filter_ip env u.2 hook.address true).2

/-- The ftrace state before any call. -/
def ftrace_start : ftrace_state := { filter := false, registered := false, calls := [] }

/-- The state of the loaded module: the hook, the ftrace state, the registry
`hidden_proc`, and whether the device node, the `cdev` and the class exist. -/
structure module_state where
  hook : ftrace_hook
  ftrace : ftrace_state
  hidden_proc : Table
  device : Bool
  cdev : Bool
  class_ : Bool

/-- Function `_hideproc_exit`: `hook_remove`, `device_destroy`, `cdev_del`,
`class_destroy`. -/
def _hideproc_exit (env : ftrace_env) (m : module_state) : module_state :=
  { m with
    ftrace := hook_remove env m.hook m.ftrace
    device := false
    cdev := false
    class_ := false }

/-- A hook descriptor as `init_hook` fills it, for evaluating the definitions. -/
def hook_example : ftrace_hook :=
  { name := "find_ge_pid", func := 4096, orig := 0, address := 0,
    ops_func := false, ops_flags := false }

/-- An environment in which the symbol is found at 8192 and the four ftrace calls give
the error codes listed. -/
def env_example (set_err remove_err register_err unregister_err : Int) : ftrace_env :=
  { kallsyms_lookup_name := fun _ => 8192, set_filter_err := set_err,
    remove_filter_err := remove_err, register_err := register_err,
    unregister_err := unregister_err }

/-! ## The write path as the token-wise description has it -/

/-- The registry after a write as the description of independent tokens has it: from left
to right, a token that `kstrtol` parses and whose value finds a task has the handler
called on the parent and on the id; every other token changes nothing. -/
def independent_tokens (K : Kernel) (handler : Table → pid_t → Int × Table) :
    List (List Char) → Table → Table
  | [], t => t
  | tok :: toks, t =>
    match K.kstrtol tok with
    | none => independent_tokens K handler toks t
    | some v =>
      match K.pid_task (to_int v) with
      | none => independent_tokens K handler toks t
      | some tsk => independent_tokens K handler toks (call_handlers handler tsk v t)

/-- The effect of the loop on the values of a list of tokens that `kstrtol` all parses:
for a value that finds a task the handler calls; for a last value that finds none, is -1
and comes with the command `del`, the call `handler(-1)`; nothing otherwise. -/
def run_values (K : Kernel) (cmd : List Char) (handler : Table → pid_t → Int × Table) :
    List Int → Table → Table
  | [], t => t
  | [v], t =>
    match K.pid_task (to_int v) with
    | none => if cmd.take 3 = "del".toList ∧ v = -1 then (handler t (to_int v)).2 else t
    | some tsk => call_handlers handler tsk v t
  | v :: vs, t =>
    match K.pid_task (to_int v) with
    | none => run_values K cmd handler vs t
    | some tsk => run_values K cmd handler vs (call_handlers handler tsk v t)

/-! ## The registry: membership, iteration order, duplicates -/

theorem mem_hash_for_each (t : Table) (x : pid_t) :
    x ∈ hash_for_each t ↔ ∃ b, x ∈ t b := by
  simp [hash_for_each, List.mem_flatMap, List.mem_finRange]

theorem is_hidden_proc_iff (t : Table) (pid : pid_t) :
    is_hidden_proc t pid = true ↔ pid ∈ hash_for_each t := by
  simp [is_hidden_proc, List.any_eq_true]

theorem is_hidden_proc_eq_false_iff (t : Table) (pid : pid_t) :
    is_hidden_proc t pid = false ↔ pid ∉ hash_for_each t := by
  rw [← is_hidden_proc_iff]; simp

theorem hash_empty_iff (t : Table) : hash_empty t = true ↔ hash_for_each t = [] := by
  simp [hash_empty, hash_for_each, List.flatMap_eq_nil_iff, List.mem_finRange,
    List.isEmpty_iff]

theorem hash_empty_iff_forall (t : Table) : hash_empty t = true ↔ ∀ b, t b = [] := by
  simp [hash_empty, List.mem_finRange, List.isEmpty_iff]

theorem hash_for_each_hash_init : hash_for_each hash_init = [] := by
  simp [hash_for_each, hash_init, List.flatMap_eq_nil_iff]

theorem flatMap_same_of_not_mem {ι α : Type} [DecidableEq ι] (f : ι → List α) (b : ι)
    (x : α) (l : List ι) (hb : b ∉ l) :
    l.flatMap (fun i => if i = b then x :: f i else f i) = l.flatMap f := by
  induction l with
  | nil => rfl
  | cons a l ih =>
    have hab : a ≠ b := fun h => hb (h ▸ List.mem_cons_self _ _)
    have hbl : b ∉ l := fun h => hb (List.mem_cons_of_mem _ h)
    simp [List.flatMap_cons, hab, ih hbl]

theorem flatMap_cons_at_perm {ι α : Type} [DecidableEq ι] (f : ι → List α) (b : ι)
    (x : α) (l : List ι) (hl : l.Nodup) (hb : b ∈ l) :
    List.Perm (l.flatMap (fun i => if i = b then x :: f i else f i)) (x :: l.flatMap f) := by
  induction l with
  | nil => simp at hb
  | cons a l ih =>
    have hal : a ∉ l := (List.nodup_cons.mp hl).1
    have hl1 : l.Nodup := (List.nodup_cons.mp hl).2
    by_cases hab : a = b
    · subst hab
      simp [List.flatMap_cons, flatMap_same_of_not_mem f a x l hal]
    · have hbl : b ∈ l := by
        rcases List.mem_cons.mp hb with h | h
        · exact absurd h.symm hab
        · exact h
      simp only [List.flatMap_cons, hab, if_false]
      exact ((ih hl1 hbl).append_left (f a)).trans List.perm_middle

theorem hash_for_each_hash_add (K : Kernel) (t : Table) (pid : pid_t) :
    List.Perm (hash_for_each (hash_add K t pid)) (pid :: hash_for_each t) :=
  flatMap_cons_at_perm t (K.hash_min pid) pid (List.finRange 16) (List.nodup_finRange 16)
    (List.mem_finRange _)

theorem hash_for_each_hash_del_if (c : pid_t → Bool) (t : Table) :
    hash_for_each (hash_del_if c t) = (hash_for_each t).filter (fun id => !c id) := by
  unfold hash_for_each
  rw [List.filter_flatMap]
  rfl

theorem nodup_hide_process (K : Kernel) (t : Table) (pid : pid_t)
    (h : (hash_for_each t).Nodup) : (hash_for_each (hide_process K t pid).2).Nodup := by
  unfold hide_process
  by_cases hp : is_hidden_proc t pid = true
  · simpa [hp] using h
  · have hnot : pid ∉ hash_for_each t := fun hm => hp ((is_hidden_proc_iff t pid).mpr hm)
    simp only [hp]
    exact ((hash_for_each_hash_add K t pid).nodup_iff).mpr (List.nodup_cons.mpr ⟨hnot, h⟩)

theorem hash_for_each_unhide_process (t : Table) (pid : pid_t) :
    hash_for_each (unhide_process t pid).2 =
      if pid = -1 then [] else (hash_for_each t).filter (fun id => id != pid) := by
  unfold unhide_process
  by_cases he : hash_empty t = true
  · have h0 : hash_for_each t = [] := (hash_empty_iff t).mp he
    simp [he, h0]
  · by_cases h1 : pid = -1
    · rw [if_neg he, if_pos h1, if_pos h1]
      simp [hash_for_each_hash_del_if]
    · rw [if_neg he, if_neg h1, if_neg h1]
      exact hash_for_each_hash_del_if _ t

theorem nodup_unhide_process (t : Table) (pid : pid_t)
    (h : (hash_for_each t).Nodup) : (hash_for_each (unhide_process t pid).2).Nodup := by
  rw [hash_for_each_unhide_process]
  by_cases h1 : pid = -1
  · simp [h1]
  · simp only [h1, if_false]
    exact h.filter _

/-! ## The write loop: scanning for commas -/

theorem memchr_token (c : Char) (tok rest : List Char) (n : Nat) (hc : c ∉ tok)
    (hn : tok.length < n) : memchr (tok ++ c :: rest) c n = some (some tok.length) := by
  induction tok generalizing n with
  | nil =>
    cases n with
    | zero => simp at hn
    | succ n => simp [memchr]
  | cons x xs ih =>
    cases n with
    | zero => simp at hn
    | succ n =>
      have hx : x ≠ c := fun h => hc (h ▸ List.mem_cons_self _ _)
      have hxs : c ∉ xs := fun h => hc (List.mem_cons_of_mem _ h)
      have hlen : xs.length < n := by simpa using hn
      simp [memchr, hx, ih n hxs hlen]

theorem memchr_absent (c : Char) (tok rest : List Char) (hc : c ∉ tok) :
    memchr (tok ++ rest) c tok.length = some none := by
  induction tok with
  | nil => cases rest <;> simp [memchr]
  | cons x xs ih =>
    have hx : x ≠ c := fun h => hc (h ▸ List.mem_cons_self _ _)
    have hxs : c ∉ xs := fun h => hc (List.mem_cons_of_mem _ h)
    simp [memchr, hx, ih hxs]

theorem takeWhile_token (tok rest : List Char) (h0 : NUL ∉ tok) :
    (tok ++ NUL :: rest).takeWhile (fun c => c != NUL) = tok := by
  induction tok with
  | nil => simp
  | cons x xs ih =>
    have hx : x ≠ NUL := fun h => h0 (h ▸ List.mem_cons_self _ _)
    have hxs : NUL ∉ xs := fun h => h0 (List.mem_cons_of_mem _ h)
    simp [hx, ih hxs]

theorem size_t_diff_add (ptr n : Nat) : size_t_diff (ptr + n) ptr = n := by
  simp [size_t_diff]

/-- On a message whose bytes from `ptr` on are the comma-joined tokens followed by the
terminator, with `end` at that terminator, the loop ends by its `break` and does to the
registry what `run_tokens` does. -/
theorem device_write_handler_loop_tokens (K : Kernel) (cmd : List Char)
    (handler : Table → pid_t → Int × Table) :
    ∀ (toks : List (List Char)), toks ≠ [] →
      (∀ tok ∈ toks, ',' ∉ tok ∧ NUL ∉ tok) →
      ∀ (fuel : Nat) (message : List Char) (ptr end_ : Nat) (pid : Int) (t : Table)
        (tail : List Char),
        toks.length ≤ fuel →
        message.drop ptr = join_commas toks ++ NUL :: tail →
        end_ = ptr + (join_commas toks).length →
        device_write_handler_loop K cmd handler end_ fuel message ptr pid t
          = Outcome.done (run_tokens K cmd handler toks pid t) := by
  intro toks
  induction toks with
  | nil => intro h; exact absurd rfl h
  | cons tok toks ih =>
    intro _ hall fuel message ptr end_ pid t tail hfuel hdrop hend
    have htok := hall tok (List.mem_cons_self _ _)
    cases fuel with
    | zero => simp at hfuel
    | succ fuel =>
      cases toks with
      | nil =>
        simp only [join_commas] at hdrop hend
        have hc : cstr message ptr = tok := by
          unfold cstr; rw [hdrop]; exact takeWhile_token tok tail htok.2
        simp only [device_write_handler_loop, run_tokens]
        rw [hdrop, hend, size_t_diff_add, memchr_absent ',' tok _ htok.1, hc]
      | cons tok1 rest =>
        have hjoin : join_commas (tok :: tok1 :: rest)
            = tok ++ ',' :: join_commas (tok1 :: rest) := rfl
        have hdrop1 : message.drop ptr
            = tok ++ ',' :: (join_commas (tok1 :: rest) ++ NUL :: tail) := by
          rw [hdrop, hjoin]; simp
        have hlt : tok.length < size_t_diff end_ ptr := by
          rw [hend, size_t_diff_add, hjoin]; simp
        have hset : (message.set (ptr + tok.length) NUL).drop ptr
            = tok ++ NUL :: (join_commas (tok1 :: rest) ++ NUL :: tail) := by
          rw [← List.set_drop, hdrop1]
          simp
        have hc : cstr (message.set (ptr + tok.length) NUL) ptr = tok := by
          unfold cstr; rw [hset]; exact takeWhile_token tok _ htok.2
        have hnext : (message.set (ptr + tok.length) NUL).drop (ptr + tok.length + 1)
            = join_commas (tok1 :: rest) ++ NUL :: tail := by
          rw [List.drop_set_of_lt _ _ (Nat.lt_succ_self _)]
          have hidx : (ptr + tok.length).succ = ptr + (tok.length + 1) := by omega
          rw [hidx, ← List.drop_drop, hdrop1, List.drop_append]
          rfl
        have hrec := ih (List.cons_ne_nil _ _)
          (fun x hx => hall x (List.mem_cons_of_mem _ hx)) fuel
          (message.set (ptr + tok.length) NUL) (ptr + tok.length + 1) end_
          (token_step K handler tok pid t).1 (token_step K handler tok pid t).2 tail
          (by simpa using hfuel) hnext (by rw [hend, hjoin]; simp; omega)
        simp only [device_write_handler_loop, run_tokens]
        rw [hdrop1, memchr_token ',' tok _ _ htok.1 hlt]
        simp only [hc]
        exact hrec

theorem length_le_length_join_commas (toks : List (List Char)) :
    toks.length ≤ (join_commas toks).length + 1 := by
  induction toks with
  | nil => simp
  | cons tok toks ih =>
    cases toks with
    | nil => simp [join_commas]
    | cons tok1 rest =>
      have hjoin : join_commas (tok :: tok1 :: rest)
          = tok ++ ',' :: join_commas (tok1 :: rest) := rfl
      rw [hjoin]
      simp only [List.length_cons, List.length_append] at ih ⊢
      omega

theorem not_mem_join_commas (c : Char) (hc : c ≠ ',') (toks : List (List Char))
    (h : ∀ tok ∈ toks, c ∉ tok) : c ∉ join_commas toks := by
  induction toks with
  | nil => simp [join_commas]
  | cons tok toks ih =>
    cases toks with
    | nil => simpa [join_commas] using h tok (List.mem_cons_self _ _)
    | cons tok1 rest =>
      have hjoin : join_commas (tok :: tok1 :: rest)
          = tok ++ ',' :: join_commas (tok1 :: rest) := rfl
      rw [hjoin]
      have h1 := h tok (List.mem_cons_self _ _)
      have h2 := ih (fun x hx => h x (List.mem_cons_of_mem _ hx))
      simp [h1, h2, hc]

theorem copy_from_user_length (buffer : List Char) :
    copy_from_user buffer buffer.length = buffer ++ [NUL] := by
  simp [copy_from_user]

/-- A write of the text `cmd`, one separator byte and the comma-joined tokens, with `len`
the length of that text: `device_write_handler` ends normally and does `run_tokens`. -/
theorem device_write_handler_tokens (K : Kernel) (pid0 : Int) (t : Table)
    (cmd : List Char) (handler : Table → pid_t → Int × Table) (toks : List (List Char))
    (hcmd : cmd = "add".toList ∨ cmd = "del".toList) (hne : toks ≠ [])
    (hall : ∀ tok ∈ toks, ',' ∉ tok ∧ NUL ∉ tok) :
    device_write_handler K pid0
        (copy_from_user (cmd ++ ' ' :: join_commas toks)
          (cmd ++ ' ' :: join_commas toks).length) cmd handler t
      = Outcome.done (run_tokens K cmd handler toks pid0 t) := by
  have hnul : NUL ∉ join_commas toks :=
    not_mem_join_commas NUL (by decide) toks (fun tok h => (hall tok h).2)
  have hcmdlen : strlen cmd = 3 := by rcases hcmd with h | h <;> (rw [h]; decide)
  have hcmdlen1 : cmd.length = 3 := by rcases hcmd with h | h <;> (rw [h]; decide)
  have hcmdnul : NUL ∉ cmd := by rcases hcmd with h | h <;> (rw [h]; decide)
  have hbuf : NUL ∉ cmd ++ ' ' :: join_commas toks := by
    have h1 : NUL ≠ ' ' := by decide
    simp [hcmdnul, hnul, h1]
  rw [copy_from_user_length]
  unfold device_write_handler
  have hstr : strlen ((cmd ++ ' ' :: join_commas toks) ++ [NUL])
      = 4 + (join_commas toks).length := by
    unfold strlen
    rw [takeWhile_token _ [] hbuf]
    simp [hcmdlen1]; omega
  rw [hstr, hcmdlen]
  apply device_write_handler_loop_tokens K cmd handler toks hne hall _ _ 4 _ pid0 t []
  · have := length_le_length_join_commas toks
    simp only [List.length_append, List.length_cons, List.length_nil]
    omega
  · have h4 : (4 : Nat) = (cmd ++ [' ']).length + 0 := by simp [hcmdlen1]
    have hsplit : (cmd ++ ' ' :: join_commas toks) ++ [NUL]
        = (cmd ++ [' ']) ++ (join_commas toks ++ [NUL]) := by simp
    rw [hsplit, h4, List.drop_append]
    rfl
  · rfl

/-- An accepted write `add <tokens>`. -/
theorem device_write_add_tokens (K : Kernel) (pid0 : Int) (t : Table)
    (toks : List (List Char)) (hne : toks ≠ [])
    (hall : ∀ tok ∈ toks, ',' ∉ tok ∧ NUL ∉ tok)
    (hlen : 5 ≤ ("add ".toList ++ join_commas toks).length) :
    device_write K pid0 t ("add ".toList ++ join_commas toks)
        ("add ".toList ++ join_commas toks).length
      = Outcome.done ((("add ".toList ++ join_commas toks).length : Int),
          run_tokens K "add".toList (hide_process K) toks pid0 t) := by
  have hbuf : "add ".toList ++ join_commas toks
      = "add".toList ++ ' ' :: join_commas toks := rfl
  have h := device_write_handler_tokens K pid0 t "add".toList (hide_process K) toks
    (Or.inl rfl) hne hall
  rw [← hbuf] at h
  unfold device_write
  have h3 : ¬ (("add ".toList ++ join_commas toks).length < 3 ∧
      ("add ".toList ++ join_commas toks).length < 3) := by omega
  have htake : (copy_from_user ("add ".toList ++ join_commas toks)
      ("add ".toList ++ join_commas toks).length).take 3 = "add".toList := by
    rw [copy_from_user_length]; rfl
  rw [if_neg h3, if_pos hlen]
  simp only [htake, if_true, h]

/-- An accepted write `del <tokens>`. -/
theorem device_write_del_tokens (K : Kernel) (pid0 : Int) (t : Table)
    (toks : List (List Char)) (hne : toks ≠ [])
    (hall : ∀ tok ∈ toks, ',' ∉ tok ∧ NUL ∉ tok)
    (hlen : 5 ≤ ("del ".toList ++ join_commas toks).length) :
    device_write K pid0 t ("del ".toList ++ join_commas toks)
        ("del ".toList ++ join_commas toks).length
      = Outcome.done ((("del ".toList ++ join_commas toks).length : Int),
          run_tokens K "del".toList unhide_process toks pid0 t) := by
  have hbuf : "del ".toList ++ join_commas toks
      = "del".toList ++ ' ' :: join_commas toks := rfl
  have h := device_write_handler_tokens K pid0 t "del".toList unhide_process toks
    (Or.inr rfl) hne hall
  rw [← hbuf] at h
  unfold device_write
  have h3 : ¬ (("del ".toList ++ join_commas toks).length < 3 ∧
      ("del ".toList ++ join_commas toks).length < 3) := by omega
  have htake : (copy_from_user ("del ".toList ++ join_commas toks)
      ("del ".toList ++ join_commas toks).length).take 3 = "del".toList := by
    rw [copy_from_user_length]; rfl
  have hadd : ¬ ("del".toList = "add".toList) := by decide
  rw [if_neg h3, if_pos hlen]
  simp only [htake, if_neg hadd, if_true, h]

/-! ## The write loop with `hide_process` as handler -/

theorem to_int_of_range (x : Int) (h : -2 ^ 31 ≤ x ∧ x < 2 ^ 31) : to_int x = x := by
  unfold to_int
  have h1 : (x + 2 ^ 31) % 2 ^ 32 = x + 2 ^ 31 :=
    Int.emod_eq_of_lt (by omega) (by omega)
  omega

theorem mem_hide_process (K : Kernel) (t : Table) (pid x : pid_t) :
    x ∈ hash_for_each (hide_process K t pid).2 ↔ x = pid ∨ x ∈ hash_for_each t := by
  unfold hide_process
  by_cases hp : is_hidden_proc t pid = true
  · have hm : pid ∈ hash_for_each t := (is_hidden_proc_iff t pid).mp hp
    rw [if_pos hp]
    constructor
    · exact fun h => Or.inr h
    · rintro (h | h)
      · rw [h]; exact hm
      · exact h
  · rw [if_neg hp]
    rw [(hash_for_each_hash_add K t pid).mem_iff, List.mem_cons]

theorem mem_call_handlers_hide (K : Kernel) (tsk : task_struct) (pid : Int) (t : Table)
    (x : pid_t) :
    x ∈ hash_for_each (call_handlers (hide_process K) tsk pid t) ↔
      x ∈ hash_for_each t ∨ x = to_int pid ∨ tsk.parent = some x := by
  unfold call_handlers
  cases hpar : tsk.parent with
  | none => simp only [mem_hide_process]; simp; tauto
  | some ppid =>
    simp only [mem_hide_process, Option.some.injEq]
    constructor
    · rintro (h | h | h)
      · exact Or.inr (Or.inl h)
      · exact Or.inr (Or.inr h.symm)
      · exact Or.inl h
    · rintro (h | h | h)
      · exact Or.inr (Or.inr h)
      · exact Or.inl h
      · exact Or.inr (Or.inl h.symm)

theorem token_last_add (K : Kernel) (handler : Table → pid_t → Int × Table)
    (tok : List Char) (pid : Int) (t : Table) :
    token_last K "add".toList handler tok pid t = (token_step K handler tok pid t).2 := by
  have hadd : ¬ (("add".toList).take 3 = "del".toList) := by decide
  simp only [token_last, token_step]
  cases h : K.pid_task (to_int ((K.kstrtol tok).getD pid)) with
  | none => simp only [hadd, false_and, if_false]
  | some tsk => rfl

/-- For the command `add` the last token is treated like the others. -/
theorem run_tokens_add (K : Kernel) (handler : Table → pid_t → Int × Table) :
    ∀ (toks : List (List Char)) (pid : Int) (t : Table),
      run_tokens K "add".toList handler toks pid t
        = (toks.foldl (fun s tok => token_step K handler tok s.1 s.2) (pid, t)).2 := by
  intro toks
  induction toks with
  | nil => intro pid t; rfl
  | cons tok toks ih =>
    intro pid t
    cases toks with
    | nil => exact token_last_add K handler tok pid t
    | cons tok1 rest =>
      have h := ih (token_step K handler tok pid t).1 (token_step K handler tok pid t).2
      simp only [run_tokens, List.foldl_cons] at h ⊢
      exact h

/-- The ids in the registry after the tokens of an `add` have been processed, when every
token is parsed by `kstrtol`: the ids before, and for every token whose value `v` finds a
task, `(int) v` and the pid of the parent of that task. -/
theorem mem_foldl_token_step_hide (K : Kernel) (x : pid_t) :
    ∀ (es : List (List Char × Int)) (pid : Int) (t : Table),
      (∀ e ∈ es, K.kstrtol e.1 = some e.2) →
      (x ∈ hash_for_each ((es.map Prod.fst).foldl
          (fun s tok => token_step K (hide_process K) tok s.1 s.2) (pid, t)).2 ↔
        x ∈ hash_for_each t ∨ ∃ e ∈ es, ∃ tsk, K.pid_task (to_int e.2) = some tsk ∧
          (x = to_int e.2 ∨ tsk.parent = some x)) := by
  intro es
  induction es with
  | nil => intro pid t _; simp
  | cons e es ih =>
    intro pid t hparse
    have he := hparse e (List.mem_cons_self _ _)
    have hrest : ∀ e1 ∈ es, K.kstrtol e1.1 = some e1.2 :=
      fun e1 h1 => hparse e1 (List.mem_cons_of_mem _ h1)
    simp only [List.map_cons, List.foldl_cons]
    rw [ih _ _ hrest]
    have hstep : x ∈ hash_for_each (token_step K (hide_process K) e.1 pid t).2 ↔
        x ∈ hash_for_each t ∨ ∃ tsk, K.pid_task (to_int e.2) = some tsk ∧
          (x = to_int e.2 ∨ tsk.parent = some x) := by
      unfold token_step
      simp only [he, Option.getD_some]
      cases htask : K.pid_task (to_int e.2) with
      | none => simp
      | some tsk => simp [mem_call_handlers_hide]
    rw [hstep]
    simp only [List.mem_cons, exists_eq_or_imp, or_assoc]

theorem hook_find_ge_pid_loop_visible (real : Int → Option pid_t) (t : Table) :
    ∀ (fuel : Nat) (cand : Option pid_t) (p : pid_t),
      hook_find_ge_pid_loop real t fuel cand = some (some p) → is_hidden_proc t p = false := by
  intro fuel
  induction fuel with
  | zero =>
    intro cand p h
    cases cand with
    | none => simp [hook_find_ge_pid_loop] at h
    | some nr =>
      by_cases hh : is_hidden_proc t nr = true
      · simp [hook_find_ge_pid_loop, hh] at h
      · have hf : is_hidden_proc t nr = false := by simpa using hh
        simp [hook_find_ge_pid_loop, hf] at h
        rw [← h]; exact hf
  | succ fuel ih =>
    intro cand p h
    cases cand with
    | none => simp [hook_find_ge_pid_loop] at h
    | some nr =>
      by_cases hh : is_hidden_proc t nr = true
      · simp only [hook_find_ge_pid_loop, hh, if_true] at h
        exact ih _ p h
      · have hf : is_hidden_proc t nr = false := by simpa using hh
        simp [hook_find_ge_pid_loop, hf] at h
        rw [← h]; exact hf

/-! ## The write loop on arbitrary bytes -/

theorem memchr_lt_length (c : Char) :
    ∀ (l : List Char) (n k : Nat), memchr l c n = some (some k) → k < l.length := by
  intro l
  induction l with
  | nil =>
    intro n k h
    cases n <;> simp [memchr] at h
  | cons x xs ih =>
    intro n k h
    cases n with
    | zero => simp [memchr] at h
    | succ n =>
      by_cases hx : x = c
      · simp [memchr, hx] at h
        rw [← h]; simp
      · simp only [memchr, hx, if_false, Option.map_eq_some', Option.map_eq_some'] at h
        obtain ⟨r, hr, hk⟩ := h
        cases r with
        | none => simp at hk
        | some j =>
          simp only [Option.map_some', Option.some.injEq] at hk
          obtain ⟨a, ha, hk⟩ := hk
          have := ih n j hr
          rw [← hk, ← ha]; simp; omega

theorem copy_from_user_length_eq (buffer : List Char) (len : Nat) :
    (copy_from_user buffer len).length = len + 1 := by
  simp only [copy_from_user, List.length_append, List.length_replicate, List.length_take]
  omega

/-- The loop does not reach the iteration bound when the bound is larger than the number
of bytes of `message` from `ptr` on. -/
theorem device_write_handler_loop_ne_timeout (K : Kernel) (cmd : List Char)
    (handler : Table → pid_t → Int × Table) (end_ : Nat) :
    ∀ (fuel : Nat) (message : List Char) (ptr : Nat) (pid : Int) (t : Table),
      ptr ≤ message.length → message.length < fuel + ptr →
      device_write_handler_loop K cmd handler end_ fuel message ptr pid t
        ≠ Outcome.timeout := by
  intro fuel
  induction fuel with
  | zero => intro message ptr pid t h1 h2; omega
  | succ fuel ih =>
    intro message ptr pid t h1 h2
    unfold device_write_handler_loop
    cases hm : memchr (message.drop ptr) ',' (size_t_diff end_ ptr) with
    | none => simp
    | some r =>
      cases r with
      | none => simp
      | some k =>
        have hk := memchr_lt_length ',' _ _ _ hm
        rw [List.length_drop] at hk
        simp only []
        apply ih
        · rw [List.length_set]; omega
        · rw [List.length_set]; omega

theorem call_handlers_preserves (P : Table → Prop)
    (handler : Table → pid_t → Int × Table)
    (hP : ∀ t pid, P t → P (handler t pid).2) (tsk : task_struct) (pid : Int) (t : Table)
    (h : P t) : P (call_handlers handler tsk pid t) := by
  unfold call_handlers
  cases tsk.parent with
  | none => exact hP _ _ h
  | some ppid => exact hP _ _ (hP _ _ h)

theorem token_step_preserves (K : Kernel) (P : Table → Prop)
    (handler : Table → pid_t → Int × Table)
    (hP : ∀ t pid, P t → P (handler t pid).2) (tok : List Char) (pid : Int) (t : Table)
    (h : P t) : P (token_step K handler tok pid t).2 := by
  simp only [token_step]
  cases K.pid_task (to_int ((K.kstrtol tok).getD pid)) with
  | none => exact h
  | some tsk => exact call_handlers_preserves P handler hP tsk _ t h

theorem token_last_preserves (K : Kernel) (P : Table → Prop) (cmd : List Char)
    (handler : Table → pid_t → Int × Table)
    (hP : ∀ t pid, P t → P (handler t pid).2) (tok : List Char) (pid : Int) (t : Table)
    (h : P t) : P (token_last K cmd handler tok pid t) := by
  simp only [token_last]
  cases K.pid_task (to_int ((K.kstrtol tok).getD pid)) with
  | none =>
    simp only []
    split
    · exact hP _ _ h
    · exact h
  | some tsk => exact call_handlers_preserves P handler hP tsk _ t h

/-- A property of the registry that every handler call preserves holds of the registry
the loop leaves, however the loop ends. -/
theorem device_write_handler_loop_preserves (K : Kernel) (P : Table → Prop)
    (cmd : List Char) (handler : Table → pid_t → Int × Table)
    (hP : ∀ t pid, P t → P (handler t pid).2) (end_ : Nat) :
    ∀ (fuel : Nat) (message : List Char) (ptr : Nat) (pid : Int) (t t1 : Table), P t →
      (device_write_handler_loop K cmd handler end_ fuel message ptr pid t).registry id
        = some t1 → P t1 := by
  intro fuel
  induction fuel with
  | zero => intro message ptr pid t t1 _ h; simp [device_write_handler_loop, Outcome.registry] at h
  | succ fuel ih =>
    intro message ptr pid t t1 hPt h
    unfold device_write_handler_loop at h
    cases hm : memchr (message.drop ptr) ',' (size_t_diff end_ ptr) with
    | none =>
      rw [hm] at h
      simp only [Outcome.registry, Option.some.injEq] at h
      rw [← h]; exact hPt
    | some r =>
      cases r with
      | none =>
        rw [hm] at h
        simp only [Outcome.registry, Option.some.injEq, id] at h
        rw [← h]; exact token_last_preserves K P cmd handler hP _ _ _ hPt
      | some k =>
        rw [hm] at h
        exact ih _ _ _ _ t1 (token_step_preserves K P handler hP _ _ _ hPt) h

theorem device_write_ne_timeout (K : Kernel) (pid0 : Int) (t : Table) (buffer : List Char)
    (len : Nat) : device_write K pid0 t buffer len ≠ Outcome.timeout := by
  have hloop : ∀ (cmd : List Char) (handler : Table → pid_t → Int × Table),
      (cmd = "add".toList ∨ cmd = "del".toList) → 5 ≤ len →
      device_write_handler K pid0 (copy_from_user buffer len) cmd handler t
        ≠ Outcome.timeout := by
    intro cmd handler hcmd h5
    have hcmdlen : strlen cmd = 3 := by rcases hcmd with h | h <;> (rw [h]; decide)
    unfold device_write_handler
    apply device_write_handler_loop_ne_timeout
    · rw [copy_from_user_length_eq, hcmdlen]; omega
    · omega
  unfold device_write
  split
  · simp
  · split
    · rename_i h5
      simp only []
      split
      · have := hloop "add".toList (hide_process K) (Or.inl rfl) h5
        split <;> simp_all
      · split
        · have := hloop "del".toList unhide_process (Or.inr rfl) h5
          split <;> simp_all
        · simp
    · simp

theorem device_write_preserves (K : Kernel) (P : Table → Prop)
    (hadd : ∀ t pid, P t → P (hide_process K t pid).2)
    (hdel : ∀ t pid, P t → P (unhide_process t pid).2)
    (pid0 : Int) (t : Table) (buffer : List Char) (len : Nat) (t1 : Table) (h : P t)
    (hr : (device_write K pid0 t buffer len).registry Prod.snd = some t1) : P t1 := by
  unfold device_write at hr
  split at hr
  · simp only [Outcome.registry, Option.some.injEq] at hr; rw [← hr]; exact h
  · split at hr
    · simp only [] at hr
      split at hr
      · split at hr
        · rename_i t2 heq
          simp only [Outcome.registry, Option.some.injEq] at hr
          rw [← hr]
          exact device_write_handler_loop_preserves K P _ _ hadd _ _ _ _ _ t t2 h
            (by unfold device_write_handler at heq; rw [heq]; rfl)
        · rename_i t2 heq
          simp only [Outcome.registry, Option.some.injEq] at hr
          rw [← hr]
          exact device_write_handler_loop_preserves K P _ _ hadd _ _ _ _ _ t t2 h
            (by unfold device_write_handler at heq; rw [heq]; rfl)
        · simp [Outcome.registry] at hr
      · split at hr
        · split at hr
          · rename_i t2 heq
            simp only [Outcome.registry, Option.some.injEq] at hr
            rw [← hr]
            exact device_write_handler_loop_preserves K P _ _ hdel _ _ _ _ _ t t2 h
              (by unfold device_write_handler at heq; rw [heq]; rfl)
          · rename_i t2 heq
            simp only [Outcome.registry, Option.some.injEq] at hr
            rw [← hr]
            exact device_write_handler_loop_preserves K P _ _ hdel _ _ _ _ _ t t2 h
              (by unfold device_write_handler at heq; rw [heq]; rfl)
          · simp [Outcome.registry] at hr
        · simp only [Outcome.registry, Option.some.injEq] at hr; rw [← hr]; exact h
    · simp only [Outcome.registry, Option.some.injEq] at hr; rw [← hr]; exact h

/-! ## The write path on every accepted buffer -/

theorem split_commas_ne_nil (p : List Char) : split_commas p ≠ [] := by
  cases p with
  | nil => simp [split_commas]
  | cons c cs =>
    unfold split_commas
    split
    · simp
    · split <;> simp

theorem join_commas_split_commas (p : List Char) : join_commas (split_commas p) = p := by
  induction p with
  | nil => rfl
  | cons c cs ih =>
    unfold split_commas
    by_cases hc : c = ','
    · rw [if_pos hc]
      cases hs : split_commas cs with
      | nil => exact absurd hs (split_commas_ne_nil cs)
      | cons tok toks =>
        rw [hs] at ih
        have hjoin : join_commas ([] :: tok :: toks) = [] ++ ',' :: join_commas (tok :: toks) :=
          rfl
        rw [hjoin, ih, hc]; rfl
    · rw [if_neg hc]
      cases hs : split_commas cs with
      | nil => exact absurd hs (split_commas_ne_nil cs)
      | cons tok toks =>
        rw [hs] at ih
        cases toks with
        | nil =>
          simp only [join_commas] at ih ⊢
          rw [ih]
        | cons tok1 rest =>
          have hjoin : ∀ x : List Char, join_commas (x :: tok1 :: rest)
              = x ++ ',' :: join_commas (tok1 :: rest) := fun _ => rfl
          rw [hjoin] at ih ⊢
          simp only [List.cons_append]
          rw [ih]

theorem mem_split_commas (p : List Char) :
    ∀ tok ∈ split_commas p, ',' ∉ tok ∧ ∀ c ∈ tok, c ∈ p := by
  induction p with
  | nil => intro tok h; simp [split_commas] at h; simp [h]
  | cons c cs ih =>
    intro tok h
    unfold split_commas at h
    by_cases hc : c = ','
    · rw [if_pos hc] at h
      rcases List.mem_cons.mp h with h1 | h1
      · rw [h1]; simp
      · exact ⟨(ih tok h1).1, fun x hx => List.mem_cons_of_mem _ ((ih tok h1).2 x hx)⟩
    · rw [if_neg hc] at h
      cases hs : split_commas cs with
      | nil => exact absurd hs (split_commas_ne_nil cs)
      | cons tok0 toks =>
        rw [hs] at h ih
        rcases List.mem_cons.mp h with h1 | h1
        · have h0 := ih tok0 (List.mem_cons_self _ _)
          rw [h1]
          refine ⟨?_, fun x hx => ?_⟩
          · intro hmem
            rcases List.mem_cons.mp hmem with h2 | h2
            · exact hc h2.symm
            · exact h0.1 h2
          · rcases List.mem_cons.mp hx with h2 | h2
            · rw [h2]; exact List.mem_cons_self _ _
            · exact List.mem_cons_of_mem _ (h0.2 x h2)
        · have h0 := ih tok (List.mem_cons_of_mem _ h1)
          exact ⟨h0.1, fun x hx => List.mem_cons_of_mem _ (h0.2 x hx)⟩

theorem takeWhile_append_NUL (l : List Char) (h : NUL ∈ l) :
    ∃ tail, l = l.takeWhile (fun c => c != NUL) ++ NUL :: tail := by
  induction l with
  | nil => simp at h
  | cons x xs ih =>
    by_cases hx : x = NUL
    · exact ⟨xs, by simp [hx]⟩
    · have hxs : NUL ∈ xs := by
        rcases List.mem_cons.mp h with h1 | h1
        · exact absurd h1.symm hx
        · exact h1
      obtain ⟨tail, ht⟩ := ih hxs
      refine ⟨tail, ?_⟩
      have hcons : (x :: xs).takeWhile (fun c => c != NUL)
          = x :: xs.takeWhile (fun c => c != NUL) := by simp [hx]
      rw [hcons, List.cons_append, ← ht]

theorem not_mem_takeWhile_NUL (l : List Char) :
    NUL ∉ l.takeWhile (fun c => c != NUL) := by
  intro h
  have := List.mem_takeWhile_imp h
  simp at this

theorem NUL_mem_copy_from_user (buffer : List Char) (len : Nat) :
    NUL ∈ copy_from_user buffer len := by
  unfold copy_from_user
  apply List.mem_append_right
  have hlen : (buffer.take len).length ≤ len := by
    rw [List.length_take]; omega
  have hpos : len + 1 - (buffer.take len).length
      = (len - (buffer.take len).length) + 1 := by omega
  rw [hpos, List.replicate_succ]
  exact List.mem_cons_self _ _

/-- The payload of a message: the bytes of its C string behind the command and the
separator byte. -/
theorem device_write_handler_payload (K : Kernel) (pid0 : Int) (t : Table)
    (cmd : List Char) (handler : Table → pid_t → Int × Table) (buffer : List Char)
    (len : Nat) (hcmd : cmd = "add".toList ∨ cmd = "del".toList)
    (h4 : 4 ≤ strlen (copy_from_user buffer len)) :
    device_write_handler K pid0 (copy_from_user buffer len) cmd handler t
      = Outcome.done (run_tokens K cmd handler
          (split_commas (((copy_from_user buffer len).takeWhile
            (fun c => c != NUL)).drop 4)) pid0 t) := by
  obtain ⟨tail, hmsg⟩ := takeWhile_append_NUL _ (NUL_mem_copy_from_user buffer len)
  have hnul := not_mem_takeWhile_NUL (copy_from_user buffer len)
  have hcmdlen : strlen cmd = 3 := by rcases hcmd with h | h <;> (rw [h]; decide)
  generalize hm : copy_from_user buffer len = message at hmsg hnul h4
  generalize ht : message.takeWhile (fun c => c != NUL) = text at hmsg hnul
  have hstr : strlen message = text.length := by unfold strlen; rw [ht]
  rw [hstr] at h4
  unfold device_write_handler
  rw [hstr, hcmdlen]
  have hall : ∀ tok ∈ split_commas (text.drop 4), ',' ∉ tok ∧ NUL ∉ tok := by
    intro tok htok
    have h := mem_split_commas _ tok htok
    exact ⟨h.1, fun hn => hnul (List.mem_of_mem_drop (h.2 NUL hn))⟩
  apply device_write_handler_loop_tokens K cmd handler _ (split_commas_ne_nil _) hall
    _ _ 4 _ pid0 t tail
  · have h1 := length_le_length_join_commas (split_commas (text.drop 4))
    rw [join_commas_split_commas, List.length_drop] at h1
    have h2 : message.length = text.length + (tail.length + 1) := by
      rw [hmsg]; simp
    omega
  · rw [join_commas_split_commas, hmsg, List.drop_append_of_le_length h4]
  · rw [join_commas_split_commas, List.length_drop]; omega

theorem memchr_none_le (c : Char) :
    ∀ (l : List Char) (n : Nat), memchr l c n = some none → n ≤ l.length := by
  intro l
  induction l with
  | nil =>
    intro n h
    cases n with
    | zero => simp
    | succ n => simp [memchr] at h
  | cons x xs ih =>
    intro n h
    cases n with
    | zero => simp
    | succ n =>
      by_cases hx : x = c
      · simp [memchr, hx] at h
      · simp only [memchr, hx, if_false, Option.map_eq_some'] at h
        obtain ⟨r, hr, hk⟩ := h
        cases r with
        | none =>
          have := ih n hr
          simp; omega
        | some j => simp at hk

/-- Once `ptr` lies behind `end`, the loop cannot end by its `break`: every `memchr` is
called with a length beyond the allocation. -/
theorem device_write_handler_loop_behind_end (K : Kernel) (cmd : List Char)
    (handler : Table → pid_t → Int × Table) (end_ : Nat) :
    ∀ (fuel : Nat) (message : List Char) (ptr : Nat) (pid : Int) (t t1 : Table),
      end_ < ptr → ptr ≤ message.length → message.length < 2 ^ 64 →
      device_write_handler_loop K cmd handler end_ fuel message ptr pid t
        ≠ Outcome.done t1 := by
  intro fuel
  induction fuel with
  | zero => intro message ptr pid t t1 _ _ _; simp [device_write_handler_loop]
  | succ fuel ih =>
    intro message ptr pid t t1 h1 h2 h3
    unfold device_write_handler_loop
    cases hm : memchr (message.drop ptr) ',' (size_t_diff end_ ptr) with
    | none => simp
    | some r =>
      cases r with
      | none =>
        have hle := memchr_none_le ',' _ _ hm
        rw [List.length_drop] at hle
        have hsz : size_t_diff end_ ptr = 2 ^ 64 - (ptr - end_) := by
          unfold size_t_diff; rw [if_neg (by omega)]
        rw [hsz] at hle
        omega
      | some k =>
        have hk := memchr_lt_length ',' _ _ _ hm
        rw [List.length_drop] at hk
        simp only []
        apply ih
        · omega
        · rw [List.length_set]; omega
        · rw [List.length_set]; exact h3

/-! ## Claims on the registry operations -/

/-- C4: for an id already present in the registry `hide_process` returns `-EINVAL`
(which is -22, not zero) and leaves the table as it is; for an id not present it returns
`SUCCESS` (zero) and links exactly one new node, carrying that id, at the head of the
bucket of the id, so that the table has one entry more. -/
theorem C4_hide_process (K : Kernel) (t : Table) (pid : pid_t) :
    (pid ∈ hash_for_each t →
      hide_process K t pid = (-EINVAL, t) ∧ (hide_process K t pid).1 = -22) ∧
    (pid ∉ hash_for_each t →
      (hide_process K t pid).1 = SUCCESS ∧ (hide_process K t pid).1 = 0 ∧
      (hide_process K t pid).2 (K.hash_min pid) = pid :: t (K.hash_min pid) ∧
      (∀ b, b ≠ K.hash_min pid → (hide_process K t pid).2 b = t b) ∧
      (hash_for_each (hide_process K t pid).2).length = (hash_for_each t).length + 1 ∧
      List.Perm (hash_for_each (hide_process K t pid).2) (pid :: hash_for_each t)) := by
  constructor
  · intro hm
    have hp : is_hidden_proc t pid = true := (is_hidden_proc_iff t pid).mpr hm
    simp [hide_process, hp, EINVAL]
  · intro hm
    have hp : is_hidden_proc t pid = false := (is_hidden_proc_eq_false_iff t pid).mpr hm
    have ht : (hide_process K t pid).2 = hash_add K t pid := by simp [hide_process, hp]
    have hperm := hash_for_each_hash_add K t pid
    refine ⟨by simp [hide_process, hp], by simp [hide_process, hp, SUCCESS], ?_, ?_, ?_, ?_⟩
    · simp [ht, hash_add]
    · intro b hb
      simp [ht, hash_add, hb]
    · rw [ht, hperm.length_eq, List.length_cons]
    · rw [ht]; exact hperm

/-- C4, on the registry that holds 100: hiding 100 again is refused with -22 and changes
nothing, hiding 200 succeeds and gives the two entries 100 and 200. -/
theorem C4_hide_process_witness :
    (100 ∈ hash_for_each (table_of (kernel_with procs_example) [100]) ∧
      hide_process (kernel_with procs_example) (table_of (kernel_with procs_example) [100]) 100
        = (-EINVAL, table_of (kernel_with procs_example) [100])) ∧
    (200 ∉ hash_for_each (table_of (kernel_with procs_example) [100]) ∧
      (hash_for_each (hide_process (kernel_with procs_example)
        (table_of (kernel_with procs_example) [100]) 200).2).length = 1 + 1) :=
  ⟨⟨by decide,
    ((C4_hide_process (kernel_with procs_example)
      (table_of (kernel_with procs_example) [100]) 100).1 (by decide)).1⟩,
   ⟨by decide,
    ((C4_hide_process (kernel_with procs_example)
      (table_of (kernel_with procs_example) [100]) 200).2 (by decide)).2.2.2.2.1⟩⟩

/-- C6: on an empty registry `unhide_process` returns `-ENOENT` (-2) for every id, the
sentinel -1 included, and the registry stays empty; on a non-empty registry and an id
other than -1 it returns `SUCCESS`, every node with that id is gone and every bucket keeps
its other nodes, in their order; on a non-empty registry and the id -1 it returns `SUCCESS`
and every bucket is empty. -/
theorem C6_unhide_process (t : Table) (id : pid_t) :
    (hash_for_each t = [] →
      unhide_process t id = (-ENOENT, t) ∧ (unhide_process t id).1 = -2 ∧
      hash_for_each (unhide_process t id).2 = []) ∧
    (hash_for_each t ≠ [] → id ≠ -1 →
      (unhide_process t id).1 = SUCCESS ∧
      id ∉ hash_for_each (unhide_process t id).2 ∧
      (∀ b, (unhide_process t id).2 b = (t b).filter (fun x => x != id)) ∧
      hash_for_each (unhide_process t id).2 = (hash_for_each t).filter (fun x => x != id) ∧
      (∀ x, x ≠ id → (x ∈ hash_for_each (unhide_process t id).2 ↔ x ∈ hash_for_each t))) ∧
    (hash_for_each t ≠ [] → id = -1 →
      (unhide_process t id).1 = SUCCESS ∧
      (∀ b, (unhide_process t id).2 b = []) ∧
      hash_for_each (unhide_process t id).2 = []) := by
  refine ⟨?_, ?_, ?_⟩
  · intro h0
    have he : hash_empty t = true := (hash_empty_iff t).mpr h0
    simp [unhide_process, he, ENOENT, h0]
  · intro hne h1
    have he : ¬ hash_empty t = true := fun he => hne ((hash_empty_iff t).mp he)
    have hl := hash_for_each_unhide_process t id
    simp only [h1, if_false] at hl
    refine ⟨by simp [unhide_process, he, h1], ?_, ?_, hl, ?_⟩
    · rw [hl]; simp [List.mem_filter]
    · intro b
      unfold unhide_process
      rw [if_neg he, if_neg h1]
      rfl
    · intro x hx
      rw [hl]; simp [List.mem_filter, hx]
  · intro hne h1
    have he : ¬ hash_empty t = true := fun he => hne ((hash_empty_iff t).mp he)
    have hl := hash_for_each_unhide_process t id
    simp only [h1, if_true] at hl
    refine ⟨by simp [unhide_process, he, h1], ?_, by rw [h1]; exact hl⟩
    intro b
    simp [unhide_process, he, h1, hash_del_if]

/-- C6, evaluated: on the empty table both a single id and -1 give -2; on the registry
holding 100 and 200, removing 100 leaves exactly 200 and removing -1 leaves nothing. -/
theorem C6_unhide_process_witness :
    (hash_for_each hash_init = [] ∧ unhide_process hash_init 7 = (-ENOENT, hash_init)) ∧
    (hash_for_each hash_init = [] ∧ unhide_process hash_init (-1) = (-ENOENT, hash_init)) ∧
    (hash_for_each (table_of (kernel_with procs_example) [100, 200]) ≠ [] ∧
      (100 : Int) ≠ -1 ∧
      hash_for_each (unhide_process (table_of (kernel_with procs_example) [100, 200]) 100).2
        = (hash_for_each (table_of (kernel_with procs_example) [100, 200])).filter
            (fun x => x != 100)) ∧
    (hash_for_each (table_of (kernel_with procs_example) [100, 200]) ≠ [] ∧
      hash_for_each (unhide_process (table_of (kernel_with procs_example) [100, 200]) (-1)).2
        = []) :=
  ⟨⟨hash_for_each_hash_init, ((C6_unhide_process hash_init 7).1 hash_for_each_hash_init).1⟩,
   ⟨hash_for_each_hash_init,
    ((C6_unhide_process hash_init (-1)).1 hash_for_each_hash_init).1⟩,
   ⟨by decide, by decide,
    ((C6_unhide_process (table_of (kernel_with procs_example) [100, 200]) 100).2.1
      (by decide) (by decide)).2.2.2.1⟩,
   ⟨by decide,
    ((C6_unhide_process (table_of (kernel_with procs_example) [100, 200]) (-1)).2.2
      (by decide) rfl).2.2⟩⟩

/-! ## Claims on the write commands -/

/-- C2: an accepted write `add id1,...,idn` in which every token is parsed by `kstrtol`
to an `int` value that finds a live task returns its length, and the ids in the registry
afterwards are exactly the ids that were there before, the ids of the list, and the pids
of the parents of the tasks of the list: nothing else, in particular no further
ancestor. -/
theorem C2_add_write (K : Kernel) (pid0 : Int) (t : Table) (es : List (List Char × Int))
    (hne : es ≠ [])
    (hes : ∀ e ∈ es, ',' ∉ e.1 ∧ NUL ∉ e.1 ∧ K.kstrtol e.1 = some e.2 ∧
      (-2 ^ 31 ≤ e.2 ∧ e.2 < 2 ^ 31) ∧ (K.pid_task e.2).isSome = true)
    (hlen : 5 ≤ ("add ".toList ++ join_commas (es.map Prod.fst)).length) :
    ∃ t1,
      device_write K pid0 t ("add ".toList ++ join_commas (es.map Prod.fst))
          ("add ".toList ++ join_commas (es.map Prod.fst)).length
        = Outcome.done ((("add ".toList ++ join_commas (es.map Prod.fst)).length : Int), t1) ∧
      ∀ x, x ∈ hash_for_each t1 ↔
        (x ∈ hash_for_each t ∨ x ∈ es.map Prod.snd ∨
          ∃ e ∈ es, ∃ tsk, K.pid_task e.2 = some tsk ∧ tsk.parent = some x) := by
  have htoks : es.map Prod.fst ≠ [] := by simpa using hne
  have hall : ∀ tok ∈ es.map Prod.fst, ',' ∉ tok ∧ NUL ∉ tok := by
    intro tok htok
    obtain ⟨e, he, rfl⟩ := List.mem_map.mp htok
    exact ⟨(hes e he).1, (hes e he).2.1⟩
  refine ⟨_, device_write_add_tokens K pid0 t _ htoks hall hlen, fun x => ?_⟩
  rw [run_tokens_add, mem_foldl_token_step_hide K x es pid0 t (fun e he => (hes e he).2.2.1)]
  constructor
  · rintro (h | ⟨e, he, tsk, htsk, h | h⟩)
    · exact Or.inl h
    · rw [to_int_of_range _ (hes e he).2.2.2.1] at h
      exact Or.inr (Or.inl (List.mem_map.mpr ⟨e, he, h.symm⟩))
    · rw [to_int_of_range _ (hes e he).2.2.2.1] at htsk
      exact Or.inr (Or.inr ⟨e, he, tsk, htsk, h⟩)
  · rintro (h | h | ⟨e, he, tsk, htsk, h⟩)
    · exact Or.inl h
    · obtain ⟨e, he, rfl⟩ := List.mem_map.mp h
      have hsome := (hes e he).2.2.2.2
      obtain ⟨tsk, htsk⟩ := Option.isSome_iff_exists.mp hsome
      refine Or.inr ⟨e, he, tsk, ?_, Or.inl ?_⟩
      · rw [to_int_of_range _ (hes e he).2.2.2.1]; exact htsk
      · rw [to_int_of_range _ (hes e he).2.2.2.1]
    · refine Or.inr ⟨e, he, tsk, ?_, Or.inr h⟩
      rw [to_int_of_range _ (hes e he).2.2.2.1]; exact htsk

/-- C2, the example of the specification: with 5, 9 and 13 live, 2 the parent of 9 and
5 and 13 without parent, the write `add 5,9,13` on the empty registry returns 10 and
leaves exactly the ids 5, 2, 9 and 13. -/
theorem C2_add_write_witness :
    ∃ t1,
      device_write (kernel_with procs_example) 0 hash_init "add 5,9,13".toList 10
        = Outcome.done (10, t1) ∧
      ∀ x, x ∈ hash_for_each t1 ↔ (x = 5 ∨ x = 9 ∨ x = 13 ∨ x = 2) := by
  obtain ⟨t1, h1, h2⟩ := C2_add_write (kernel_with procs_example) 0 hash_init
    [("5".toList, 5), ("9".toList, 9), ("13".toList, 13)] (by decide) (by decide)
    (by decide)
  refine ⟨t1, h1, fun x => ?_⟩
  rw [h2]
  simp only [hash_for_each_hash_init, List.not_mem_nil, false_or, List.map_cons,
    List.map_nil, List.mem_cons, exists_eq_or_imp, or_false, false_and, exists_false,
    List.mem_singleton, exists_eq_left]
  have h5 : (kernel_with procs_example).pid_task 5 = some { parent := none } := by decide
  have h9 : (kernel_with procs_example).pid_task 9 = some { parent := some 2 } := by decide
  have h13 : (kernel_with procs_example).pid_task 13 = some { parent := none } := by decide
  rw [h5, h9, h13]
  constructor
  · rintro ((h | h | h) | ⟨tsk, h, hp⟩ | ⟨tsk, h, hp⟩ | ⟨tsk, h, hp⟩)
    · exact Or.inl h
    · exact Or.inr (Or.inl h)
    · exact Or.inr (Or.inr (Or.inl h))
    · cases h; cases hp
    · cases h; cases hp; exact Or.inr (Or.inr (Or.inr rfl))
    · cases h; cases hp
  · rintro (h | h | h | h)
    · exact Or.inl (Or.inl h)
    · exact Or.inl (Or.inr (Or.inl h))
    · exact Or.inl (Or.inr (Or.inr h))
    · exact Or.inr (Or.inr (Or.inl ⟨_, rfl, by rw [h]⟩))

/-- C3, as the code has it: after an accepted write `add id1,...,idn` whose tokens are
all parsed by `kstrtol`, every id of the list that is an `int` and finds a live task is
hidden (`is_hidden_proc` is true), and on that registry `hook_find_ge_pid` returns it for
no start value and no original search. -/
theorem C3_add_write_hides_live (K : Kernel) (pid0 : Int) (t : Table)
    (es : List (List Char × Int)) (hne : es ≠ [])
    (hes : ∀ e ∈ es, ',' ∉ e.1 ∧ NUL ∉ e.1 ∧ K.kstrtol e.1 = some e.2)
    (hlen : 5 ≤ ("add ".toList ++ join_commas (es.map Prod.fst)).length) :
    ∃ t1,
      device_write K pid0 t ("add ".toList ++ join_commas (es.map Prod.fst))
          ("add ".toList ++ join_commas (es.map Prod.fst)).length
        = Outcome.done ((("add ".toList ++ join_commas (es.map Prod.fst)).length : Int), t1) ∧
      ∀ p ∈ es.map Prod.snd, (-2 ^ 31 ≤ p ∧ p < 2 ^ 31) → (K.pid_task p).isSome = true →
        is_hidden_proc t1 p = true ∧
        ∀ (fuel : Nat) (real : Int → Option pid_t) (nr : Int),
          hook_find_ge_pid fuel real t1 nr ≠ some (some p) := by
  have htoks : es.map Prod.fst ≠ [] := by simpa using hne
  have hall : ∀ tok ∈ es.map Prod.fst, ',' ∉ tok ∧ NUL ∉ tok := by
    intro tok htok
    obtain ⟨e, he, rfl⟩ := List.mem_map.mp htok
    exact ⟨(hes e he).1, (hes e he).2.1⟩
  refine ⟨_, device_write_add_tokens K pid0 t _ htoks hall hlen, fun p hp hrange hlive => ?_⟩
  obtain ⟨e, he, rfl⟩ := List.mem_map.mp hp
  obtain ⟨tsk, htsk⟩ := Option.isSome_iff_exists.mp hlive
  have hmem : e.2 ∈ hash_for_each
      (run_tokens K "add".toList (hide_process K) (es.map Prod.fst) pid0 t) := by
    rw [run_tokens_add,
      mem_foldl_token_step_hide K e.2 es pid0 t (fun e he => (hes e he).2.2)]
    refine Or.inr ⟨e, he, tsk, ?_, Or.inl ?_⟩
    · rw [to_int_of_range _ hrange]; exact htsk
    · rw [to_int_of_range _ hrange]
  have hhid := (is_hidden_proc_iff _ _).mpr hmem
  refine ⟨hhid, fun fuel real nr hret => ?_⟩
  have hvis := hook_find_ge_pid_loop_visible real _ fuel (real nr) e.2 hret
  rw [hhid] at hvis
  exact Bool.noConfusion hvis

/-- C3, evaluated: after `add 5,9,13` (5, 9 and 13 live) the id 9 is hidden and the
filter over the live ids 2, 5, 9, 13, 20 started at 9 returns 20, not 9. -/
theorem C3_add_write_hides_live_witness :
    ∃ t1,
      device_write (kernel_with procs_example) 0 hash_init "add 5,9,13".toList 10
        = Outcome.done (10, t1) ∧
      is_hidden_proc t1 9 = true ∧
      hook_find_ge_pid 5 (real_find_ge_pid [2, 5, 9, 13, 20]) t1 9 ≠ some (some 9) := by
  obtain ⟨t1, h1, h2⟩ := C3_add_write_hides_live (kernel_with procs_example) 0 hash_init
    [("5".toList, 5), ("9".toList, 9), ("13".toList, 13)] (by decide) (by decide)
    (by decide)
  have h9 := h2 9 (by decide) (by decide) (by decide)
  exact ⟨t1, h1, h9.1, h9.2 5 (real_find_ge_pid [2, 5, 9, 13, 20]) 9⟩

/-- C3 as stated fails: 7 is named in the accepted write `add 7`, `kstrtol` parses it, but
no task has the id 7, so the handler is not called and 7 is not hidden afterwards. -/
theorem C3_counterexample :
    ∃ t1,
      device_write (kernel_with procs_example) 0 hash_init "add 7".toList 5
        = Outcome.done (5, t1) ∧
      (kernel_with procs_example).kstrtol "7".toList = some 7 ∧
      is_hidden_proc t1 7 = false :=
  ⟨_, rfl, by decide, by decide⟩

/-- C7: the write `del -1`, when `kstrtol` reads -1 and no task has the id -1, returns
its length 6 and leaves the registry that `unhide_process(-1)` leaves, which is empty
whatever was hidden before; on an empty registry nothing changes and `unhide_process(-1)`
returns `-ENOENT`. -/
theorem C7_del_minus_one (K : Kernel) (pid0 : Int) (t : Table)
    (hparse : K.kstrtol "-1".toList = some (-1)) (hdead : K.pid_task (-1) = none) :
    ∃ t1,
      device_write K pid0 t "del -1".toList 6 = Outcome.done (6, t1) ∧
      t1 = (unhide_process t (-1)).2 ∧
      hash_for_each t1 = [] ∧ (∀ b, t1 b = []) ∧
      (hash_for_each t = [] → t1 = t ∧ unhide_process t (-1) = (-ENOENT, t)) := by
  have hw := device_write_del_tokens K pid0 t ["-1".toList] (by decide) (by decide)
    (by decide)
  have hrun : run_tokens K "del".toList unhide_process ["-1".toList] pid0 t
      = (unhide_process t (-1)).2 := by
    have hto : to_int (-1) = -1 := by decide
    have hdel : ("del".toList).take 3 = "del".toList := by decide
    simp only [run_tokens, token_last, hparse, Option.getD_some, hto, hdead, hdel,
      true_and, if_true]
  rw [hrun] at hw
  refine ⟨_, hw, rfl, ?_, ?_, ?_⟩
  · rw [hash_for_each_unhide_process]; simp
  · have h0 : hash_for_each (unhide_process t (-1)).2 = [] := by
      rw [hash_for_each_unhide_process]; simp
    exact (hash_empty_iff_forall _).mp ((hash_empty_iff _).mpr h0)
  · intro h0
    have he : hash_empty t = true := (hash_empty_iff t).mpr h0
    simp [unhide_process, he]

/-- C7, evaluated on the registry that holds 100 and 200, and on the empty registry. -/
theorem C7_del_minus_one_witness :
    (∃ t1, device_write (kernel_with procs_example) 0
        (table_of (kernel_with procs_example) [100, 200]) "del -1".toList 6
          = Outcome.done (6, t1) ∧ hash_for_each t1 = []) ∧
    (∃ t1, device_write (kernel_with procs_example) 0 hash_init "del -1".toList 6
          = Outcome.done (6, t1) ∧ t1 = hash_init ∧
        unhide_process hash_init (-1) = (-ENOENT, hash_init)) := by
  constructor
  · obtain ⟨t1, h1, _, h3, _⟩ := C7_del_minus_one (kernel_with procs_example) 0
      (table_of (kernel_with procs_example) [100, 200]) (by decide) (by decide)
    exact ⟨t1, h1, h3⟩
  · obtain ⟨t1, h1, _, _, _, h5⟩ := C7_del_minus_one (kernel_with procs_example) 0
      hash_init (by decide) (by decide)
    exact ⟨t1, h1, (h5 hash_for_each_hash_init).1, (h5 hash_for_each_hash_init).2⟩

/-- C5: no two entries of the registry carry the same id.  This holds of the initial
table and is kept by `hide_process`, by `unhide_process` (for a single id and for -1),
and by `device_write` for every buffer and length: the call ends (the iteration bound of
the embedding is never reached) and the registry it leaves, whether it returned or ran
off the message, has no duplicate. -/
theorem C5_no_duplicates :
    (hash_for_each hash_init).Nodup ∧
    (∀ (K : Kernel) (t : Table) (pid : pid_t), (hash_for_each t).Nodup →
      (hash_for_each (hide_process K t pid).2).Nodup) ∧
    (∀ (t : Table) (pid : pid_t), (hash_for_each t).Nodup →
      (hash_for_each (unhide_process t pid).2).Nodup) ∧
    (∀ (K : Kernel) (pid0 : Int) (t : Table) (buffer : List Char) (len : Nat),
      (hash_for_each t).Nodup →
      device_write K pid0 t buffer len ≠ Outcome.timeout ∧
      ∀ t1, (device_write K pid0 t buffer len).registry Prod.snd = some t1 →
        (hash_for_each t1).Nodup) := by
  refine ⟨?_, nodup_hide_process, nodup_unhide_process, ?_⟩
  · rw [hash_for_each_hash_init]; exact List.nodup_nil
  · intro K pid0 t buffer len h
    refine ⟨device_write_ne_timeout K pid0 t buffer len, fun t1 hr => ?_⟩
    exact device_write_preserves K (fun t => (hash_for_each t).Nodup)
      (nodup_hide_process K) nodup_unhide_process pid0 t buffer len t1 h hr

/-- C5, applied: hiding 100 twice, removing 200 and writing `add 5,9,13` and `hide 5`,
each on the duplicate-free registry that holds 100 and 200. -/
theorem C5_no_duplicates_witness :
    (hash_for_each (table_of (kernel_with procs_example) [100, 200])).Nodup ∧
    (hash_for_each (hide_process (kernel_with procs_example)
      (table_of (kernel_with procs_example) [100, 200]) 100).2).Nodup ∧
    (hash_for_each (unhide_process
      (table_of (kernel_with procs_example) [100, 200]) 200).2).Nodup ∧
    (∀ t1, (device_write (kernel_with procs_example) 0
        (table_of (kernel_with procs_example) [100, 200]) "add 5,9,13".toList 10).registry
          Prod.snd = some t1 → (hash_for_each t1).Nodup) ∧
    (∀ t1, (device_write (kernel_with procs_example) 0
        (table_of (kernel_with procs_example) [100, 200]) "hide 5".toList 6).registry
          Prod.snd = some t1 → (hash_for_each t1).Nodup) :=
  have h0 : (hash_for_each (table_of (kernel_with procs_example) [100, 200])).Nodup := by
    decide
  ⟨h0, C5_no_duplicates.2.1 _ _ 100 h0, C5_no_duplicates.2.2.1 _ 200 h0,
    (C5_no_duplicates.2.2.2 (kernel_with procs_example) 0 _ "add 5,9,13".toList 10 h0).2,
    (C5_no_duplicates.2.2.2 (kernel_with procs_example) 0 _ "hide 5".toList 6 h0).2⟩

/-- The rejected writes: `device_write` returns `-EAGAIN` exactly when `len < 5` or the
first three bytes of the message are neither `add` nor `del`, and then the registry is
the one from before the call. -/
theorem device_write_rejects_iff (K : Kernel) (pid0 : Int) (t : Table)
    (buffer : List Char) (len : Nat) :
    ((∃ t1, device_write K pid0 t buffer len = Outcome.done (-EAGAIN, t1)) ↔
      (len < 5 ∨ ((copy_from_user buffer len).take 3 ≠ "add".toList ∧
        (copy_from_user buffer len).take 3 ≠ "del".toList))) ∧
    (∀ t1, device_write K pid0 t buffer len = Outcome.done (-EAGAIN, t1) → t1 = t) := by
  have hneg : ∀ t2 t3 : Table, ((len : Int), t2) ≠ (-EAGAIN, t3) := by
    intro t2 t3 h
    have h1 := congrArg Prod.fst h
    simp only [EAGAIN] at h1
    omega
  unfold device_write
  by_cases h3 : len < 3 ∧ len < 3
  · rw [if_pos h3]
    refine ⟨⟨fun _ => Or.inl (by omega), fun _ => ⟨t, rfl⟩⟩, fun t1 h => ?_⟩
    simp only [Outcome.done.injEq, Prod.mk.injEq] at h
    exact h.2.symm
  · rw [if_neg h3]
    by_cases h5 : 5 ≤ len
    · rw [if_pos h5]
      simp only []
      by_cases ha : (copy_from_user buffer len).take 3 = "add".toList
      · rw [if_pos ha]
        cases device_write_handler K pid0 (copy_from_user buffer len) "add".toList
            (hide_process K) t with
        | done t2 =>
          simp only [Outcome.done.injEq]
          refine ⟨⟨fun ⟨t1, h⟩ => absurd h (hneg _ _), ?_⟩, fun t1 h => absurd h (hneg _ _)⟩
          rintro (h | h)
          · omega
          · exact absurd ha h.1
        | fault t2 =>
          refine ⟨⟨fun ⟨t1, h⟩ => Outcome.noConfusion h, ?_⟩, fun t1 h => Outcome.noConfusion h⟩
          rintro (h | h)
          · omega
          · exact absurd ha h.1
        | timeout =>
          refine ⟨⟨fun ⟨t1, h⟩ => Outcome.noConfusion h, ?_⟩, fun t1 h => Outcome.noConfusion h⟩
          rintro (h | h)
          · omega
          · exact absurd ha h.1
      · rw [if_neg ha]
        by_cases hd : (copy_from_user buffer len).take 3 = "del".toList
        · rw [if_pos hd]
          cases device_write_handler K pid0 (copy_from_user buffer len) "del".toList
              unhide_process t with
          | done t2 =>
            simp only [Outcome.done.injEq]
            refine ⟨⟨fun ⟨t1, h⟩ => absurd h (hneg _ _), ?_⟩, fun t1 h => absurd h (hneg _ _)⟩
            rintro (h | h)
            · omega
            · exact absurd hd h.2
          | fault t2 =>
            refine ⟨⟨fun ⟨t1, h⟩ => Outcome.noConfusion h, ?_⟩,
              fun t1 h => Outcome.noConfusion h⟩
            rintro (h | h)
            · omega
            · exact absurd hd h.2
          | timeout =>
            refine ⟨⟨fun ⟨t1, h⟩ => Outcome.noConfusion h, ?_⟩,
              fun t1 h => Outcome.noConfusion h⟩
            rintro (h | h)
            · omega
            · exact absurd hd h.2
        · rw [if_neg hd]
          refine ⟨⟨fun _ => Or.inr ⟨ha, hd⟩, fun _ => ⟨t, rfl⟩⟩, fun t1 h => ?_⟩
          simp only [Outcome.done.injEq, Prod.mk.injEq] at h
          exact h.2.symm
    · rw [if_neg h5]
      refine ⟨⟨fun _ => Or.inl (by omega), fun _ => ⟨t, rfl⟩⟩, fun t1 h => ?_⟩
      simp only [Outcome.done.injEq, Prod.mk.injEq] at h
      exact h.2.symm

/-- The accepted writes whose C string reaches behind the separator byte
(`strlen(message) ≥ 4`): `device_write` returns `len`, and the registry is the one
`run_tokens` gives on the pieces of the payload between the commas. -/
theorem device_write_returns_len (K : Kernel) (pid0 : Int) (t : Table)
    (buffer : List Char) (len : Nat) (h5 : 5 ≤ len)
    (h4 : 4 ≤ strlen (copy_from_user buffer len)) :
    ((copy_from_user buffer len).take 3 = "add".toList →
      device_write K pid0 t buffer len
        = Outcome.done ((len : Int), run_tokens K "add".toList (hide_process K)
            (split_commas (((copy_from_user buffer len).takeWhile
              (fun c => c != NUL)).drop 4)) pid0 t)) ∧
    ((copy_from_user buffer len).take 3 = "del".toList →
      device_write K pid0 t buffer len
        = Outcome.done ((len : Int), run_tokens K "del".toList unhide_process
            (split_commas (((copy_from_user buffer len).takeWhile
              (fun c => c != NUL)).drop 4)) pid0 t)) := by
  have h3 : ¬ (len < 3 ∧ len < 3) := by omega
  constructor
  · intro ha
    unfold device_write
    rw [if_neg h3, if_pos h5]
    simp only [ha, if_true,
      device_write_handler_payload K pid0 t "add".toList (hide_process K) buffer len
        (Or.inl rfl) h4]
  · intro hd
    have hadd : ¬ ("del".toList = "add".toList) := by decide
    unfold device_write
    rw [if_neg h3, if_pos h5]
    simp only [hd, if_neg hadd, if_true,
      device_write_handler_payload K pid0 t "del".toList unhide_process buffer len
        (Or.inr rfl) h4]

/-- The accepted writes whose C string ends before the payload (`strlen(message) < 4`, a
terminator in the byte after the verb): `device_write` does not return. -/
theorem device_write_behind_end (K : Kernel) (pid0 : Int) (t : Table)
    (buffer : List Char) (len : Nat) (h5 : 5 ≤ len) (hlen : len + 1 < 2 ^ 64)
    (hverb : (copy_from_user buffer len).take 3 = "add".toList ∨
      (copy_from_user buffer len).take 3 = "del".toList)
    (h4 : strlen (copy_from_user buffer len) < 4) (r : Int × Table) :
    device_write K pid0 t buffer len ≠ Outcome.done r := by
  have h3 : ¬ (len < 3 ∧ len < 3) := by omega
  have hloop : ∀ (cmd : List Char) (handler : Table → pid_t → Int × Table) (t1 : Table),
      (cmd = "add".toList ∨ cmd = "del".toList) →
      device_write_handler K pid0 (copy_from_user buffer len) cmd handler t
        ≠ Outcome.done t1 := by
    intro cmd handler t1 hcmd
    have hcmdlen : strlen cmd = 3 := by rcases hcmd with h | h <;> (rw [h]; decide)
    unfold device_write_handler
    apply device_write_handler_loop_behind_end
    · rw [hcmdlen]; omega
    · rw [copy_from_user_length_eq, hcmdlen]; omega
    · rw [copy_from_user_length_eq]; exact hlen
  unfold device_write
  rw [if_neg h3, if_pos h5]
  simp only []
  rcases hverb with ha | hd
  · rw [if_pos ha]
    have := hloop "add".toList (hide_process K)
    split
    · rename_i t1 heq; exact absurd heq (this t1 (Or.inl rfl))
    · simp
    · simp
  · have hadd : ¬ ((copy_from_user buffer len).take 3 = "add".toList) := by
      rw [hd]; decide
    rw [if_neg hadd, if_pos hd]
    have := hloop "del".toList unhide_process
    split
    · rename_i t1 heq; exact absurd heq (this t1 (Or.inr rfl))
    · simp
    · simp

/-- C8 at the five bytes `a d d NUL NUL` with `len = 5`: the write is not rejected (the
length is 5 and the verb is `add`), `strlen(message)` is 3, so `ptr = message + 4` lies
behind `end = message + 3`, `memchr` is called with the length `(size_t) -1` and leaves
the six bytes of `message`: the call does not return `len`, and it does not return
`-EAGAIN` either.  Next to it the malformed write `hide 5`, which is rejected with
`-EAGAIN` and the registry unchanged. -/
theorem C8_device_write_embedded_nul (K : Kernel) (pid0 : Int) (t : Table) :
    device_write K pid0 t ['a', 'd', 'd', NUL, NUL] 5 = Outcome.fault t ∧
    device_write K pid0 t ['a', 'd', 'd', NUL, NUL] 5 ≠ Outcome.done (5, t) ∧
    device_write K pid0 t ['a', 'd', 'd', NUL, NUL] 5 ≠ Outcome.done (-EAGAIN, t) ∧
    device_write K pid0 t "hide 5".toList 6 = Outcome.done (-EAGAIN, t) := by
  have h : device_write K pid0 t ['a', 'd', 'd', NUL, NUL] 5 = Outcome.fault t := rfl
  refine ⟨h, ?_, ?_, rfl⟩
  · rw [h]; exact fun h1 => Outcome.noConfusion h1
  · rw [h]; exact fun h1 => Outcome.noConfusion h1

/-! ## Claims on the read side -/

theorem device_read_loop_of_fits :
    ∀ (l : List pid_t) (out : List Char) (offset : Int),
      (∀ id ∈ l, (sprintf_pid id).length + 1 ≤ MAX_MESSAGE_SIZE) →
      device_read_loop l out offset
        = some (out ++ l.flatMap sprintf_pid, offset + (l.flatMap sprintf_pid).length) := by
  intro l
  induction l with
  | nil => intro out offset _; simp [device_read_loop]
  | cons id l ih =>
    intro out offset hfit
    have h1 := hfit id (List.mem_cons_self _ _)
    have h2 : ∀ x ∈ l, (sprintf_pid x).length + 1 ≤ MAX_MESSAGE_SIZE :=
      fun x hx => hfit x (List.mem_cons_of_mem _ hx)
    simp only [device_read_loop, h1, if_true, ih _ _ h2, List.flatMap_cons,
      List.append_assoc, List.length_append, Nat.cast_add, Int.add_assoc]

/-- The read side when every line fits into `message`: at offset 0 the bytes copied are
the lines `pid: <id>` with a newline, one per node in iteration order, the return value
and the new offset are their total length; at another offset nothing is copied, 0 is
returned and the offset stays. -/
theorem device_read_of_fits (t : Table) (len : Nat)
    (hfit : ∀ id ∈ hash_for_each t, (sprintf_pid id).length + 1 ≤ MAX_MESSAGE_SIZE) :
    device_read t len 0
      = some ((((hash_for_each t).flatMap sprintf_pid).length : Int),
          (hash_for_each t).flatMap sprintf_pid,
          (((hash_for_each t).flatMap sprintf_pid).length : Int)) ∧
    ∀ offset : Int, offset ≠ 0 → device_read t len offset = some (0, [], offset) := by
  constructor
  · unfold device_read
    rw [if_neg (by simp), device_read_loop_of_fits _ _ _ hfit]
    simp
  · intro offset h
    unfold device_read
    rw [if_pos h]

/-- The example of the specification for the read side: with 100 and 200 hidden the first
read copies the two lines (100 first here) and returns 18, a read at offset 18 returns 0
and copies nothing. -/
theorem device_read_example :
    device_read (table_of (kernel_with procs_example) [100, 200]) 64 0
      = some (18, "pid: 100\npid: 200\n".toList, 18) ∧
    device_read (table_of (kernel_with procs_example) [100, 200]) 64 18
      = some (0, [], 18) := by
  constructor <;> decide

/-- C9 on the duplicate-free registry that holds the single id 1000000: the line
`pid: 1000000` with its newline and terminator needs 14 bytes, the array `message` has
`MAX_MESSAGE_SIZE = 13`, so `sprintf` writes past its end and `device_read` at offset 0
does not deliver the line. -/
theorem C9_device_read_overrun (len : Nat) :
    (hash_for_each (table_of (kernel_with procs_example) [1000000])).Nodup ∧
    hash_for_each (table_of (kernel_with procs_example) [1000000]) = [1000000] ∧
    (sprintf_pid 1000000).length + 1 = 14 ∧
    MAX_MESSAGE_SIZE = 13 ∧
    device_read (table_of (kernel_with procs_example) [1000000]) len 0 = none := by
  refine ⟨by decide, by decide, by decide, by decide, ?_⟩
  have h : hash_for_each (table_of (kernel_with procs_example) [1000000]) = [1000000] := by
    decide
  unfold device_read
  rw [if_neg (by simp), h]
  decide

/-! ## The enumeration filter -/

theorem real_find_ge_pid_spec (S : List Int) (n p : Int)
    (h : real_find_ge_pid S n = some p) : n ≤ p ∧ p ∈ S := by
  unfold real_find_ge_pid at h
  exact ⟨by simpa using List.find?_some h, List.mem_of_find?_eq_some h⟩

theorem real_find_ge_pid_skip (pre S : List Int) (m : Int) (hpre : ∀ x ∈ pre, x < m) :
    real_find_ge_pid (pre ++ S) m = real_find_ge_pid S m := by
  unfold real_find_ge_pid
  have hnone : pre.find? (fun s => decide (m ≤ s)) = none := by
    rw [List.find?_eq_none]
    intro x hx
    have := hpre x hx
    simp only [decide_eq_true_eq]; omega
  rw [List.find?_append, hnone]; rfl

theorem find?_eq_head?_of_all {α : Type} (p : α → Bool) (l : List α)
    (h : ∀ x ∈ l, p x = true) : l.find? p = l.head? := by
  cases l with
  | nil => rfl
  | cons a l => simp [h a (List.mem_cons_self _ _)]

theorem hook_find_ge_pid_loop_mono (real : Int → Option pid_t) (t : Table) :
    ∀ (fuel : Nat) (cand : Option pid_t) (r : Option pid_t),
      hook_find_ge_pid_loop real t fuel cand = some r →
      ∀ fuel1, fuel ≤ fuel1 → hook_find_ge_pid_loop real t fuel1 cand = some r := by
  intro fuel
  induction fuel with
  | zero =>
    intro cand r h fuel1 _
    cases cand with
    | none => cases fuel1 <;> simpa [hook_find_ge_pid_loop] using h
    | some nr =>
      by_cases hh : is_hidden_proc t nr = true
      · simp [hook_find_ge_pid_loop, hh] at h
      · have hf : is_hidden_proc t nr = false := by simpa using hh
        cases fuel1 <;> simpa [hook_find_ge_pid_loop, hf] using h
  | succ fuel ih =>
    intro cand r h fuel1 hle
    cases fuel1 with
    | zero => omega
    | succ fuel1 =>
      cases cand with
      | none => simpa [hook_find_ge_pid_loop] using h
      | some nr =>
        by_cases hh : is_hidden_proc t nr = true
        · simp only [hook_find_ge_pid_loop, hh, if_true] at h ⊢
          exact ih _ r h fuel1 (by omega)
        · have hf : is_hidden_proc t nr = false := by simpa using hh
          simpa [hook_find_ge_pid_loop, hf] using h

/-- The loop over an ascending sequence: started on the candidate for `m`, with all ids
of `pre` below `m`, it ends on the first visible id of `S` that is at least `m`. -/
theorem hook_find_ge_pid_loop_sorted (t : Table) :
    ∀ (S pre : List Int) (m : Int) (fuel : Nat),
      (pre ++ S).Pairwise (fun a b => a < b) →
      (∀ s ∈ pre ++ S, -2 ^ 31 ≤ s ∧ s < 2 ^ 31 - 1) →
      (∀ x ∈ pre, x < m) → S.length ≤ fuel →
      hook_find_ge_pid_loop (real_find_ge_pid (pre ++ S)) t fuel
          (real_find_ge_pid (pre ++ S) m)
        = some ((S.filter (fun s => !is_hidden_proc t s)).find?
            (fun s => decide (m ≤ s))) := by
  intro S
  induction S with
  | nil =>
    intro pre m fuel _ _ hpre _
    rw [real_find_ge_pid_skip pre [] m hpre]
    cases fuel <;> simp [real_find_ge_pid, hook_find_ge_pid_loop]
  | cons s S ih =>
    intro pre m fuel hsorted hrange hpre hfuel
    have hassoc : pre ++ s :: S = (pre ++ [s]) ++ S := by simp
    have hsS : ∀ x ∈ S, s < x := by
      have h1 := (List.pairwise_append.mp hsorted).2.1
      exact (List.pairwise_cons.mp h1).1
    by_cases hms : m ≤ s
    · have hcand : real_find_ge_pid (pre ++ s :: S) m = some s := by
        rw [real_find_ge_pid_skip pre _ m hpre]
        simp [real_find_ge_pid, hms]
      rw [hcand]
      by_cases hh : is_hidden_proc t s = true
      · cases fuel with
        | zero => simp at hfuel
        | succ fuel =>
          have hsr := hrange s (by simp)
          have hto : to_int (s + 1) = s + 1 := to_int_of_range _ (by omega)
          have hpre1 : ∀ x ∈ pre ++ [s], x < s + 1 := by
            intro x hx
            rcases List.mem_append.mp hx with h | h
            · have := hpre x h; omega
            · simp at h; omega
          have hrec := ih (pre ++ [s]) (s + 1) fuel (by rw [← hassoc]; exact hsorted)
            (by rw [← hassoc]; exact hrange) hpre1 (by simpa using hfuel)
          rw [← hassoc] at hrec
          simp only [hook_find_ge_pid_loop, hh, if_true, hto]
          rw [hrec]
          have hfilt : (s :: S).filter (fun s => !is_hidden_proc t s)
              = S.filter (fun s => !is_hidden_proc t s) := by
            simp [List.filter_cons, hh]
          rw [hfilt,
            find?_eq_head?_of_all (fun x => decide (s + 1 ≤ x)) _ (by
              intro x hx
              have := hsS x (List.mem_filter.mp hx).1
              simp only [decide_eq_true_eq]; omega),
            find?_eq_head?_of_all (fun x => decide (m ≤ x)) _ (by
              intro x hx
              have := hsS x (List.mem_filter.mp hx).1
              simp only [decide_eq_true_eq]; omega)]
      · have hf : is_hidden_proc t s = false := by simpa using hh
        have hres : ((s :: S).filter (fun s => !is_hidden_proc t s)).find?
            (fun x => decide (m ≤ x)) = some s := by
          simp [List.filter_cons, hf, hms]
        rw [hres]
        cases fuel <;> simp [hook_find_ge_pid_loop, hf]
    · have hpre1 : ∀ x ∈ pre ++ [s], x < m := by
        intro x hx
        rcases List.mem_append.mp hx with h | h
        · exact hpre x h
        · simp at h; omega
      have hrec := ih (pre ++ [s]) m fuel (by rw [← hassoc]; exact hsorted)
        (by rw [← hassoc]; exact hrange) hpre1
        (by simp only [List.length_cons] at hfuel; omega)
      rw [← hassoc] at hrec
      rw [hrec]
      congr 1
      by_cases hh : is_hidden_proc t s = true
      · simp [List.filter_cons, hh]
      · have hf : is_hidden_proc t s = false := by simpa using hh
        simp [List.filter_cons, hf, hms]

theorem find?_ge_sorted_iff (V : List Int) (n s : Int)
    (hV : V.Pairwise (fun a b => a < b)) :
    V.find? (fun x => decide (n ≤ x)) = some s ↔
      s ∈ V ∧ n ≤ s ∧ ∀ x ∈ V, n ≤ x → s ≤ x := by
  induction V with
  | nil => simp
  | cons v V ih =>
    have hvV : ∀ x ∈ V, v < x := (List.pairwise_cons.mp hV).1
    have hV1 := (List.pairwise_cons.mp hV).2
    by_cases hnv : n ≤ v
    · rw [List.find?_cons_of_pos _ (by simpa using hnv)]
      constructor
      · intro h
        cases h
        refine ⟨List.mem_cons_self _ _, hnv, fun x hx _ => ?_⟩
        rcases List.mem_cons.mp hx with h | h
        · omega
        · have := hvV x h; omega
      · rintro ⟨hs, hns, hmin⟩
        have h1 := hmin v (List.mem_cons_self _ _) hnv
        rcases List.mem_cons.mp hs with h | h
        · rw [h]
        · have := hvV s h; omega
    · rw [List.find?_cons_of_neg _ (by simpa using hnv), ih hV1]
      constructor
      · rintro ⟨hs, hns, hmin⟩
        refine ⟨List.mem_cons_of_mem _ hs, hns, fun x hx hnx => ?_⟩
        rcases List.mem_cons.mp hx with h | h
        · omega
        · exact hmin x h hnx
      · rintro ⟨hs, hns, hmin⟩
        refine ⟨?_, hns, fun x hx hnx => hmin x (List.mem_cons_of_mem _ hx) hnx⟩
        rcases List.mem_cons.mp hs with h | h
        · omega
        · exact h

theorem filter_ge_sorted (V : List Int) (n p : Int) (hV : V.Pairwise (fun a b => a < b))
    (h : V.find? (fun x => decide (n ≤ x)) = some p) :
    V.filter (fun x => decide (n ≤ x)) = p :: V.filter (fun x => decide (p + 1 ≤ x)) := by
  induction V with
  | nil => simp at h
  | cons v V ih =>
    have hvV : ∀ x ∈ V, v < x := (List.pairwise_cons.mp hV).1
    have hV1 := (List.pairwise_cons.mp hV).2
    by_cases hnv : n ≤ v
    · rw [List.find?_cons_of_pos _ (by simpa using hnv)] at h
      have hvp : v = p := Option.some.inj h
      subst hvp
      have h1 : V.filter (fun x => decide (n ≤ x)) = V := by
        rw [List.filter_eq_self]
        intro x hx
        have := hvV x hx
        simp only [decide_eq_true_eq]; omega
      have h2 : V.filter (fun x => decide (v + 1 ≤ x)) = V := by
        rw [List.filter_eq_self]
        intro x hx
        have := hvV x hx
        simp only [decide_eq_true_eq]; omega
      simp [List.filter_cons, hnv, h1, h2]
    · rw [List.find?_cons_of_neg _ (by simpa using hnv)] at h
      have hp := List.find?_some h
      simp only [decide_eq_true_eq] at hp
      have hvp : ¬ p + 1 ≤ v := by omega
      simp [List.filter_cons, hnv, hvp, ih hV1 h]

theorem enumerate_sorted (V : List Int) (hV : V.Pairwise (fun a b => a < b)) :
    ∀ (fuel : Nat) (n : Int), (V.filter (fun x => decide (n ≤ x))).length < fuel →
      enumerate (fun m => some (V.find? (fun x => decide (m ≤ x)))) fuel n
        = some (V.filter (fun x => decide (n ≤ x))) := by
  intro fuel
  induction fuel with
  | zero => intro n h; omega
  | succ fuel ih =>
    intro n h
    cases hf : V.find? (fun x => decide (n ≤ x)) with
    | none =>
      have hnil : V.filter (fun x => decide (n ≤ x)) = [] := by
        rw [List.filter_eq_nil_iff]
        exact List.find?_eq_none.mp hf
      simp [enumerate, hf, hnil]
    | some p =>
      have hcons := filter_ge_sorted V n p hV hf
      rw [hcons] at h ⊢
      simp only [enumerate, hf]
      rw [ih (p + 1) (by simpa using h)]
      rfl

/-- The loop ends within `maxId + 1 - p` further calls of `real` when the candidate is
`p` and `real` only returns ids between its argument and `maxId`. -/
theorem hook_find_ge_pid_loop_bounded (real : Int → Option Int) (t : Table)
    (maxId : Int) (hmax : maxId < 2 ^ 31 - 1)
    (hreal : ∀ n p : Int, real n = some p → n ≤ p ∧ p ≤ maxId) :
    ∀ (fuel : Nat) (cand : Option Int),
      (∀ p : Int, cand = some p → -2 ^ 31 ≤ p ∧ p ≤ maxId ∧ maxId + 1 - p ≤ fuel) →
      ∃ r, hook_find_ge_pid_loop real t fuel cand = some r := by
  intro fuel
  induction fuel with
  | zero =>
    intro cand h
    cases cand with
    | none => exact ⟨none, rfl⟩
    | some p =>
      have := h p rfl
      simp only [Nat.cast_zero] at this
      omega
  | succ fuel ih =>
    intro cand h
    cases cand with
    | none => exact ⟨none, rfl⟩
    | some p =>
      have hp := h p rfl
      by_cases hh : is_hidden_proc t p = true
      · have hto : to_int (p + 1) = p + 1 := to_int_of_range _ (by omega)
        simp only [hook_find_ge_pid_loop, hh, if_true, hto]
        apply ih
        intro q hq
        have hq1 := hreal _ _ hq
        simp only [Nat.cast_add, Nat.cast_one] at hp
        omega
      · have hf : is_hidden_proc t p = false := by simpa using hh
        exact ⟨some p, by simp [hook_find_ge_pid_loop, hf]⟩

/-- C1: let the original search be `real_find_ge_pid S` for a strictly ascending sequence
`S` of ids (each an `int` below `INT_MAX`).  For every registry `t` and every start `n`,
`hook_find_ge_pid` returns, with at most `|S|` repeated searches, a result `r` such that
`r` is the process `s` exactly when `s` is the smallest id of `S` with `n ≤ s` that is not
hidden, and `r` is none exactly when `S` has no such id.  Enumerating by calling it again
with the last id plus one gives exactly the visible ids of `S` from `n` on, in ascending
order; from a start not above `S` that is all of `S` without the hidden ids. -/
theorem C1_filter_contract (S : List Int) (t : Table) (n : Int)
    (hsorted : S.Pairwise (fun a b => a < b))
    (hrange : ∀ s ∈ S, -2 ^ 31 ≤ s ∧ s < 2 ^ 31 - 1) :
    (∃ r,
      (∀ fuel, S.length ≤ fuel → hook_find_ge_pid fuel (real_find_ge_pid S) t n = some r) ∧
      (∀ s, r = some s ↔
        (s ∈ S ∧ n ≤ s ∧ is_hidden_proc t s = false ∧
          ∀ x ∈ S, n ≤ x → is_hidden_proc t x = false → s ≤ x)) ∧
      (r = none ↔ ¬ ∃ s ∈ S, n ≤ s ∧ is_hidden_proc t s = false)) ∧
    (∀ fuel, S.length < fuel →
      enumerate (hook_find_ge_pid S.length (real_find_ge_pid S) t) fuel n
        = some ((S.filter (fun s => !is_hidden_proc t s)).filter
            (fun s => decide (n ≤ s)))) ∧
    ((∀ s ∈ S, n ≤ s) → ∀ fuel, S.length < fuel →
      enumerate (hook_find_ge_pid S.length (real_find_ge_pid S) t) fuel n
        = some (S.filter (fun s => !is_hidden_proc t s))) := by
  have hloop : ∀ (m : Int) (fuel : Nat), S.length ≤ fuel →
      hook_find_ge_pid fuel (real_find_ge_pid S) t m
        = some ((S.filter (fun s => !is_hidden_proc t s)).find?
            (fun s => decide (m ≤ s))) := by
    intro m fuel hfuel
    have h := hook_find_ge_pid_loop_sorted t S [] m fuel (by simpa using hsorted)
      (by simpa using hrange) (by simp) hfuel
    simpa [hook_find_ge_pid] using h
  have hV : (S.filter (fun s => !is_hidden_proc t s)).Pairwise (fun a b => a < b) :=
    hsorted.filter _
  have henum : ∀ fuel, S.length < fuel →
      enumerate (hook_find_ge_pid S.length (real_find_ge_pid S) t) fuel n
        = some ((S.filter (fun s => !is_hidden_proc t s)).filter
            (fun s => decide (n ≤ s))) := by
    intro fuel hfuel
    have hfun : hook_find_ge_pid S.length (real_find_ge_pid S) t
        = fun m => some ((S.filter (fun s => !is_hidden_proc t s)).find?
            (fun s => decide (m ≤ s))) := by
      funext m; exact hloop m S.length (Nat.le_refl _)
    rw [hfun]
    apply enumerate_sorted _ hV
    exact Nat.lt_of_le_of_lt
      (Nat.le_trans (List.length_filter_le _ _) (List.length_filter_le _ _)) hfuel
  refine ⟨⟨_, hloop n, fun s => ?_, ?_⟩, henum, fun hall fuel hfuel => ?_⟩
  · rw [find?_ge_sorted_iff _ n s hV]
    simp only [List.mem_filter, Bool.not_eq_true', and_imp]
    constructor
    · rintro ⟨⟨h1, h2⟩, h3, h4⟩
      exact ⟨h1, h3, h2, fun x hx hnx hvis => h4 x hx hvis hnx⟩
    · rintro ⟨h1, h3, h2, h4⟩
      exact ⟨⟨h1, h2⟩, h3, fun x hx hvis hnx => h4 x hx hnx hvis⟩
  · rw [List.find?_eq_none]
    simp only [List.mem_filter, Bool.not_eq_true', decide_eq_true_eq, and_imp, not_exists,
      not_and]
    constructor
    · intro h s hs hns hvis
      exact h s hs hvis hns
    · intro h s hs hvis hns
      exact h s hs hns hvis
  · rw [henum fuel hfuel]
    congr 1
    rw [List.filter_eq_self]
    intro s hs
    have := hall s (List.mem_filter.mp hs).1
    simpa using this

/-- C1, evaluated: over the live ids 2, 5, 9, 13, 20 with 5 and 9 hidden, the search
from 3 skips 5 and 9 and returns 13, and the enumeration from 0 gives 2, 13, 20. -/
theorem C1_filter_contract_witness :
    hook_find_ge_pid 5 (real_find_ge_pid [2, 5, 9, 13, 20])
        (table_of (kernel_with procs_example) [5, 9]) 3 = some (some 13) ∧
    enumerate (hook_find_ge_pid 5 (real_find_ge_pid [2, 5, 9, 13, 20])
        (table_of (kernel_with procs_example) [5, 9])) 6 0 = some [2, 13, 20] := by
  have h := C1_filter_contract [2, 5, 9, 13, 20]
    (table_of (kernel_with procs_example) [5, 9])
  refine ⟨by decide, ?_⟩
  exact ((h 0 (by decide) (by decide)).2.1 6 (by decide)).trans (by decide)

/-- C10: for every registry, every start `nr` (an `int`) and every original search that
returns only ids between its argument and a bound `maxId` below `INT_MAX`: the start
value of each repeated search, the id found plus one, is larger than the start value
before it, and `hook_find_ge_pid` returns after at most `maxId + 1 - nr` repeated
searches (none at all when `nr` is above `maxId`), with the same result for every larger
budget. -/
theorem C10_hook_terminates (real : Int → Option Int) (t : Table) (nr maxId : Int)
    (hnr : -2 ^ 31 ≤ nr) (hmax : maxId < 2 ^ 31 - 1)
    (hreal : ∀ n p : Int, real n = some p → n ≤ p ∧ p ≤ maxId) :
    (∀ n p : Int, -2 ^ 31 ≤ n → real n = some p → n < to_int (p + 1)) ∧
    ∃ r, ∀ fuel : Nat, (maxId + 1 - nr).toNat ≤ fuel →
      hook_find_ge_pid fuel real t nr = some r := by
  constructor
  · intro n p hn h
    have hp := hreal n p h
    rw [to_int_of_range _ (by omega)]
    omega
  · obtain ⟨r, hr⟩ := hook_find_ge_pid_loop_bounded real t maxId hmax hreal
      (maxId + 1 - nr).toNat (real nr) (by
        intro p hp
        have h1 := hreal nr p hp
        omega)
    exact ⟨r, fun fuel hfuel =>
      hook_find_ge_pid_loop_mono real t _ _ r hr fuel hfuel⟩

/-- C10, applied to the search over the live ids 2, 5, 9, 13, 20 (bounded by 20) and the
registry hiding all of them: from the start 3 the filter returns within 18 repeated
searches. -/
theorem C10_hook_terminates_witness :
    ∃ r, ∀ fuel : Nat, 18 ≤ fuel →
      hook_find_ge_pid fuel (real_find_ge_pid [2, 5, 9, 13, 20])
        (table_of (kernel_with procs_example) [2, 5, 9, 13, 20]) 3 = some r :=
  (C10_hook_terminates (real_find_ge_pid [2, 5, 9, 13, 20])
    (table_of (kernel_with procs_example) [2, 5, 9, 13, 20]) 3 20 (by decide) (by decide)
    (fun (n p : Int) h => by
      have h1 := real_find_ge_pid_spec _ n p h
      have h2 : p = 2 ∨ p = 5 ∨ p = 9 ∨ p = 13 ∨ p = 20 := by simpa using h1.2
      exact ⟨h1.1, by omega⟩)).2

/-! ## Claims on the interception engine -/

/-- C11: on entry into the hooked function with caller address `parent_ip`,
`hook_ftrace_thunk` stores `hook->func` in the saved instruction pointer when `parent_ip`
lies outside the module, and then only the instruction pointer changes; when `parent_ip`
lies inside the module all saved registers, the instruction pointer included, stay as they
are, so that a call from the replacement goes on into the original function.  The saved
registers change only for a caller outside the module. -/
theorem C11_hook_ftrace_thunk {R : Type} (within_module : Nat → Bool) (hook : ftrace_hook)
    (ip parent_ip : Nat) (regs : pt_regs R) :
    (within_module parent_ip = false →
      hook_ftrace_thunk within_module hook ip parent_ip regs
        = { ip := hook.func, rest := regs.rest }) ∧
    (within_module parent_ip = true →
      hook_ftrace_thunk within_module hook ip parent_ip regs = regs) ∧
    (hook_ftrace_thunk within_module hook ip parent_ip regs).rest = regs.rest ∧
    ((hook_ftrace_thunk within_module hook ip parent_ip regs).ip ≠ regs.ip →
      within_module parent_ip = false) := by
  unfold hook_ftrace_thunk
  cases h : within_module parent_ip <;> simp

/-- C11, evaluated for a module that occupies the addresses 1000 to 1999 and a replacement
at 4096: a caller at 500 is redirected, a caller at 1500 is not. -/
theorem C11_hook_ftrace_thunk_witness :
    hook_ftrace_thunk (fun a => decide (1000 ≤ a ∧ a < 2000)) hook_example 8192 500
        ({ ip := 8197, rest := 7 } : pt_regs Nat) = { ip := 4096, rest := 7 } ∧
    hook_ftrace_thunk (fun a => decide (1000 ≤ a ∧ a < 2000)) hook_example 8192 1500
        ({ ip := 8197, rest := 7 } : pt_regs Nat) = { ip := 8197, rest := 7 } :=
  ⟨(C11_hook_ftrace_thunk (fun a => decide (1000 ≤ a ∧ a < 2000)) hook_example 8192 500
      { ip := 8197, rest := 7 }).1 (by decide),
   (C11_hook_ftrace_thunk (fun a => decide (1000 ≤ a ∧ a < 2000)) hook_example 8192 1500
      { ip := 8197, rest := 7 }).2.1 (by decide)⟩

/-- C12, as the code has it: started with no filter set and no trampoline registered,
`hook_install` returns 0 exactly with the filter set and the trampoline registered.  When
it returns an error the trampoline is not registered, and the filter is set only in one
case: it had been set, the registration failed, and the removing call
`ftrace_set_filter_ip(.., 1, 0)`, which is made after the failed registration and whose
result is not looked at, failed as well.  When the symbol is not resolved the error is
`-ENOENT` and no ftrace call is made. -/
theorem C12_hook_install (env : ftrace_env) (hook : ftrace_hook) :
    ((hook_install env hook ftrace_start).1 = 0 →
      (hook_install env hook ftrace_start).2.2.filter = true ∧
      (hook_install env hook ftrace_start).2.2.registered = true) ∧
    ((hook_install env hook ftrace_start).1 ≠ 0 →
      (hook_install env hook ftrace_start).2.2.registered = false ∧
      ((hook_install env hook ftrace_start).2.2.filter = true ↔
        (env.kallsyms_lookup_name hook.name ≠ 0 ∧ env.set_filter_err = 0 ∧
          env.register_err ≠ 0 ∧ env.remove_filter_err ≠ 0)) ∧
      (env.remove_filter_err = 0 →
        (hook_install env hook ftrace_start).2.2.filter = false)) ∧
    (env.kallsyms_lookup_name hook.name ≠ 0 → env.set_filter_err = 0 →
      env.register_err ≠ 0 →
      (hook_install env hook ftrace_start).1 = env.register_err ∧
      (hook_install env hook ftrace_start).2.2.calls
        = [ftrace_call.set_filter_ip (env.kallsyms_lookup_name hook.name) false,
           ftrace_call.register_function,
           ftrace_call.set_filter_ip (env.kallsyms_lookup_name hook.name) true]) ∧
    (env.kallsyms_lookup_name hook.name = 0 →
      (hook_install env hook ftrace_start).1 = -ENOENT ∧
      (hook_install env hook ftrace_start).2.2 = ftrace_start) := by
  by_cases hl : env.kallsyms_lookup_name hook.name = 0
  · simp [hook_install, hook_resolve_addr, hl, ENOENT, ftrace_start]
  · by_cases hs : env.set_filter_err = 0
    · by_cases hr : env.register_err = 0
      · simp [hook_install, hook_resolve_addr, ftrace_set_filter_ip,
          register_ftrace_function, hl, hs, hr, ftrace_start]
      · by_cases hd : env.remove_filter_err = 0
        · simp [hook_install, hook_resolve_addr, ftrace_set_filter_ip,
            register_ftrace_function, hl, hs, hr, hd, ftrace_start]
        · simp [hook_install, hook_resolve_addr, ftrace_set_filter_ip,
            register_ftrace_function, hl, hs, hr, hd, ftrace_start]
    · simp [hook_install, hook_resolve_addr, ftrace_set_filter_ip, hl, hs, ftrace_start]

/-- C12, evaluated with the symbol at 8192: all calls succeed; the filter call fails
with -12; the registration fails with -16 and the removal succeeds. -/
theorem C12_hook_install_witness :
    ((hook_install (env_example 0 0 0 0) hook_example ftrace_start).1 = 0 ∧
      (hook_install (env_example 0 0 0 0) hook_example ftrace_start).2.2.filter = true ∧
      (hook_install (env_example 0 0 0 0) hook_example ftrace_start).2.2.registered
        = true) ∧
    ((hook_install (env_example (-12) 0 0 0) hook_example ftrace_start).1 ≠ 0 ∧
      (hook_install (env_example (-12) 0 0 0) hook_example ftrace_start).2.2.registered
        = false) ∧
    ((hook_install (env_example 0 0 (-16) 0) hook_example ftrace_start).1 ≠ 0 ∧
      (env_example 0 0 (-16) 0).remove_filter_err = 0 ∧
      (hook_install (env_example 0 0 (-16) 0) hook_example ftrace_start).2.2.filter
        = false) :=
  ⟨⟨by decide, (C12_hook_install (env_example 0 0 0 0) hook_example).1 (by decide)⟩,
   ⟨by decide,
    ((C12_hook_install (env_example (-12) 0 0 0) hook_example).2.1 (by decide)).1⟩,
   ⟨by decide, by decide,
    ((C12_hook_install (env_example 0 0 (-16) 0) hook_example).2.1 (by decide)).2.2
      (by decide)⟩⟩

/-- C12 as stated fails when every call of `ftrace_set_filter_ip` may fail: with the
filter set, the registration failing with -16 and the removing call failing with -12,
`hook_install` returns -16 and leaves the filter set with no trampoline registered. -/
theorem C12_counterexample :
    (hook_install (env_example 0 (-12) (-16) 0) hook_example ftrace_start).1 = -16 ∧
    (hook_install (env_example 0 (-12) (-16) 0) hook_example ftrace_start).2.2.filter
      = true ∧
    (hook_install (env_example 0 (-12) (-16) 0) hook_example ftrace_start).2.2.registered
      = false ∧
    (hook_install (env_example 0 (-12) (-16) 0) hook_example ftrace_start).2.2.calls
      = [ftrace_call.set_filter_ip 8192 false, ftrace_call.register_function,
         ftrace_call.set_filter_ip 8192 true] := by
  decide

/-- C15 on every state of the module: `_hideproc_exit` removes the hook, the device node,
the `cdev` and the class and does not touch `hidden_proc`; with 100 and 200 hidden at
unload the registry still has its two entries afterwards. -/
theorem C15_hideproc_exit_keeps_registry (env : ftrace_env) (m : module_state) :
    (_hideproc_exit env m).hidden_proc = m.hidden_proc ∧
    hash_for_each (_hideproc_exit (env_example 0 0 0 0)
      { hook := hook_example, ftrace := ftrace_start,
        hidden_proc := table_of (kernel_with procs_example) [100, 200],
        device := true, cdev := true, class_ := true }).hidden_proc = [100, 200] :=
  ⟨rfl, by decide⟩

/-! ## The write loop on tokens that `kstrtol` parses -/

theorem token_step_of_parse (K : Kernel) (handler : Table → pid_t → Int × Table)
    (tok : List Char) (v pid : Int) (t : Table) (h : K.kstrtol tok = some v) :
    token_step K handler tok pid t
      = (v, match K.pid_task (to_int v) with
            | none => t
            | some tsk => call_handlers handler tsk v t) := by
  simp only [token_step, h, Option.getD_some]
  cases K.pid_task (to_int v) <;> rfl

/-- When `kstrtol` parses every token, the loop does what `run_values` does on the parsed
values; the value the local `pid` had before plays no part. -/
theorem run_tokens_values (K : Kernel) (cmd : List Char)
    (handler : Table → pid_t → Int × Table) :
    ∀ (es : List (List Char × Int)) (pid : Int) (t : Table),
      (∀ e ∈ es, K.kstrtol e.1 = some e.2) →
      run_tokens K cmd handler (es.map Prod.fst) pid t
        = run_values K cmd handler (es.map Prod.snd) t := by
  intro es
  induction es with
  | nil => intro pid t _; rfl
  | cons e es ih =>
    intro pid t hparse
    have he := hparse e (List.mem_cons_self _ _)
    have hrest : ∀ e1 ∈ es, K.kstrtol e1.1 = some e1.2 :=
      fun e1 h1 => hparse e1 (List.mem_cons_of_mem _ h1)
    cases es with
    | nil =>
      simp only [List.map_cons, List.map_nil, run_tokens, run_values, token_last, he,
        Option.getD_some]
    | cons e1 rest =>
      have hrec := ih (token_step K handler e.1 pid t).1 (token_step K handler e.1 pid t).2
        hrest
      simp only [List.map_cons, run_tokens, run_values] at hrec ⊢
      rw [hrec, token_step_of_parse K handler e.1 e.2 pid t he]
      cases K.pid_task (to_int e.2) <;> rfl

/-- For the command `add`, `run_values` applies the handler calls to each value that finds
a task, the last value included. -/
theorem run_values_add_independent (K : Kernel) (handler : Table → pid_t → Int × Table) :
    ∀ (es : List (List Char × Int)) (t : Table),
      (∀ e ∈ es, K.kstrtol e.1 = some e.2) →
      run_values K "add".toList handler (es.map Prod.snd) t
        = independent_tokens K handler (es.map Prod.fst) t := by
  have hadd : ¬ (("add".toList).take 3 = "del".toList) := by decide
  intro es
  induction es with
  | nil => intro t _; rfl
  | cons e es ih =>
    intro t hparse
    have he := hparse e (List.mem_cons_self _ _)
    have hrest : ∀ e1 ∈ es, K.kstrtol e1.1 = some e1.2 :=
      fun e1 h1 => hparse e1 (List.mem_cons_of_mem _ h1)
    cases es with
    | nil =>
      simp only [List.map_cons, List.map_nil, run_values, independent_tokens, he]
      cases K.pid_task (to_int e.2) with
      | none => simp only [hadd, false_and, if_false]
      | some tsk => rfl
    | cons e1 rest =>
      simp only [List.map_cons, run_values, independent_tokens, he] at ih ⊢
      cases K.pid_task (to_int e.2) with
      | none => exact ih t hrest
      | some tsk => exact ih _ hrest

theorem mem_unhide_process (t : Table) (pid x : pid_t)
    (h : x ∈ hash_for_each (unhide_process t pid).2) : x ∈ hash_for_each t ∧ x ≠ pid := by
  rw [hash_for_each_unhide_process] at h
  by_cases h1 : pid = -1
  · simp [h1] at h
  · simp only [h1, if_false, List.mem_filter, bne_iff_ne, ne_eq] at h
    exact h

theorem mem_call_handlers_unhide (tsk : task_struct) (pid : Int) (t : Table) (x : pid_t)
    (h : x ∈ hash_for_each (call_handlers unhide_process tsk pid t)) :
    x ∈ hash_for_each t ∧ x ≠ to_int pid ∧ tsk.parent ≠ some x := by
  unfold call_handlers at h
  cases hpar : tsk.parent with
  | none =>
    rw [hpar] at h
    have h1 := mem_unhide_process _ _ _ h
    exact ⟨h1.1, h1.2, by simp⟩
  | some ppid =>
    rw [hpar] at h
    have h1 := mem_unhide_process _ _ _ h
    have h2 := mem_unhide_process _ _ _ h1.1
    refine ⟨h2.1, h1.2, ?_⟩
    intro heq
    exact h2.2 (Option.some.inj heq).symm

/-- What is still hidden after the values of a `del` have been processed was hidden
before and is neither the `int` value nor the parent pid of a listed task. -/
theorem mem_run_values_unhide (K : Kernel) (cmd : List Char) (x : pid_t) :
    ∀ (vs : List Int) (t : Table),
      x ∈ hash_for_each (run_values K cmd unhide_process vs t) →
      x ∈ hash_for_each t ∧
      ∀ v ∈ vs, ∀ tsk, K.pid_task (to_int v) = some tsk →
        x ≠ to_int v ∧ tsk.parent ≠ some x := by
  intro vs
  induction vs with
  | nil => intro t h; exact ⟨h, by simp⟩
  | cons v vs ih =>
    intro t h
    cases vs with
    | nil =>
      simp only [run_values] at h
      cases htask : K.pid_task (to_int v) with
      | none =>
        rw [htask] at h
        refine ⟨?_, ?_⟩
        · simp only [] at h
          split at h
          · exact (mem_unhide_process _ _ _ h).1
          · exact h
        · intro v1 hv1 tsk htsk
          simp only [List.mem_singleton] at hv1
          rw [hv1, htask] at htsk
          exact Option.noConfusion htsk
      | some tsk =>
        rw [htask] at h
        have h1 := mem_call_handlers_unhide tsk v t x h
        refine ⟨h1.1, ?_⟩
        intro v1 hv1 tsk1 htsk1
        simp only [List.mem_singleton] at hv1
        subst hv1
        rw [htask] at htsk1
        cases htsk1
        exact h1.2
    | cons v1 rest =>
      simp only [run_values] at h
      cases htask : K.pid_task (to_int v) with
      | none =>
        rw [htask] at h
        have h1 := ih t h
        refine ⟨h1.1, ?_⟩
        intro v2 hv2 tsk htsk
        rcases List.mem_cons.mp hv2 with h2 | h2
        · rw [h2, htask] at htsk
          exact Option.noConfusion htsk
        · exact h1.2 v2 h2 tsk htsk
      | some tsk =>
        rw [htask] at h
        have h1 := ih _ h
        have h3 := mem_call_handlers_unhide tsk v t x h1.1
        refine ⟨h3.1, ?_⟩
        intro v2 hv2 tsk2 htsk2
        rcases List.mem_cons.mp hv2 with h2 | h2
        · subst h2
          rw [htask] at htsk2
          cases htsk2
          exact h3.2
        · exact h1.2 v2 h2 tsk2 htsk2

/-! ## Claims on the tokens of a write -/

/-- C13 on the registry that holds 100 and 200, with no task 7 and no task -1: the write
`del -1,7`, where -1 is not the last token, returns 8 and leaves both entries hidden,
although `unhide_process(-1)` would remove them; the write `del 7,-1`, where -1 is the
last token, removes them. -/
theorem C13_del_minus_one_not_last :
    (∃ t1, device_write (kernel_with procs_example) 0
        (table_of (kernel_with procs_example) [100, 200]) "del -1,7".toList 8
          = Outcome.done (8, t1) ∧ hash_for_each t1 = [100, 200]) ∧
    (∃ t1, device_write (kernel_with procs_example) 0
        (table_of (kernel_with procs_example) [100, 200]) "del 7,-1".toList 8
          = Outcome.done (8, t1) ∧ hash_for_each t1 = []) ∧
    (kernel_with procs_example).pid_task (-1) = none ∧
    hash_for_each (unhide_process (table_of (kernel_with procs_example) [100, 200]) (-1)).2
      = [] :=
  ⟨⟨_, rfl, by decide⟩, ⟨_, rfl, by decide⟩, by decide, by decide⟩

/-- C14, as the code has it: an accepted write whose tokens are all parsed by `kstrtol`
returns its length, and the registry afterwards is the one `run_values` gives on the
parsed values: from left to right the handler on the parent and on the id of every value
that finds a task, `unhide_process(-1)` for a last value -1 of a `del` that finds no task,
nothing for any other value.  For `add` that is the registry of the description by
independent tokens. -/
theorem C14_valid_tokens (K : Kernel) (pid0 : Int) (t : Table)
    (es : List (List Char × Int)) (hne : es ≠ [])
    (hes : ∀ e ∈ es, ',' ∉ e.1 ∧ NUL ∉ e.1 ∧ K.kstrtol e.1 = some e.2)
    (hlen : 1 ≤ (join_commas (es.map Prod.fst)).length) :
    device_write K pid0 t ("add ".toList ++ join_commas (es.map Prod.fst))
        ("add ".toList ++ join_commas (es.map Prod.fst)).length
      = Outcome.done ((("add ".toList ++ join_commas (es.map Prod.fst)).length : Int),
          run_values K "add".toList (hide_process K) (es.map Prod.snd) t) ∧
    run_values K "add".toList (hide_process K) (es.map Prod.snd) t
      = independent_tokens K (hide_process K) (es.map Prod.fst) t ∧
    device_write K pid0 t ("del ".toList ++ join_commas (es.map Prod.fst))
        ("del ".toList ++ join_commas (es.map Prod.fst)).length
      = Outcome.done ((("del ".toList ++ join_commas (es.map Prod.fst)).length : Int),
          run_values K "del".toList unhide_process (es.map Prod.snd) t) := by
  have htoks : es.map Prod.fst ≠ [] := by simpa using hne
  have hall : ∀ tok ∈ es.map Prod.fst, ',' ∉ tok ∧ NUL ∉ tok := by
    intro tok htok
    obtain ⟨e, he, rfl⟩ := List.mem_map.mp htok
    exact ⟨(hes e he).1, (hes e he).2.1⟩
  have hparse : ∀ e ∈ es, K.kstrtol e.1 = some e.2 := fun e he => (hes e he).2.2
  have hadd := device_write_add_tokens K pid0 t _ htoks hall
    (by simp only [List.length_append]; have : ("add ".toList).length = 4 := rfl; omega)
  have hdel := device_write_del_tokens K pid0 t _ htoks hall
    (by simp only [List.length_append]; have : ("del ".toList).length = 4 := rfl; omega)
  rw [run_tokens_values K _ _ es pid0 t hparse] at hadd hdel
  exact ⟨hadd, run_values_add_independent K _ es t hparse, hdel⟩

/-- C14, evaluated: `add 5,7,9` hides 5, the parent 2 of 9 and 9, and skips 7, which
names no task. -/
theorem C14_valid_tokens_witness :
    ∃ t1,
      device_write (kernel_with procs_example) 0 hash_init "add 5,7,9".toList 9
        = Outcome.done (9, t1) ∧
      hash_for_each t1 = [9, 2, 5] := by
  have h := (C14_valid_tokens (kernel_with procs_example) 0 hash_init
    [("5".toList, 5), ("7".toList, 7), ("9".toList, 9)] (by decide) (by decide)
    (by decide)).1
  exact ⟨_, h, by decide⟩

/-- C14 as stated fails in two ways.  By the rule for the last token, the write `del -1`
on the registry holding 100 and 200 removes both, while -1 names no task and the
description by independent tokens leaves them.  And a token that `kstrtol` rejects is
processed with the value left in `pid`: the write `add x`, entered while the
uninitialised `pid` holds 5, hides the live process 5. -/
theorem C14_counterexample :
    (∃ t1, device_write (kernel_with procs_example) 0
        (table_of (kernel_with procs_example) [100, 200]) "del -1".toList 6
          = Outcome.done (6, t1) ∧ hash_for_each t1 = [] ∧
        hash_for_each (independent_tokens (kernel_with procs_example) unhide_process
          ["-1".toList] (table_of (kernel_with procs_example) [100, 200])) = [100, 200]) ∧
    ((kernel_with procs_example).kstrtol "x".toList = none ∧
      ∃ t1, device_write (kernel_with procs_example) 5 hash_init "add x".toList 5
          = Outcome.done (5, t1) ∧ hash_for_each t1 = [5] ∧
        hash_for_each (independent_tokens (kernel_with procs_example)
          (hide_process (kernel_with procs_example)) ["x".toList] hash_init) = []) :=
  ⟨⟨_, rfl, by decide, by decide⟩, by decide, ⟨_, rfl, by decide, by decide⟩⟩

/-- C16: a token that `kstrtol` parses to a value which finds no task leaves the registry
as it is, whatever the handler: always when a comma follows it, and as the last token
unless the command is `del` and the value is -1.  So an accepted write `del <id>` for an
id other than -1 that finds no task returns its length and removes nothing, whether or
not the id is hidden. -/
theorem C16_dead_token (K : Kernel) (cmd : List Char)
    (handler : Table → pid_t → Int × Table) (tok : List Char) (v pid : Int) (t : Table)
    (hparse : K.kstrtol tok = some v) (hdead : K.pid_task (to_int v) = none) :
    token_step K handler tok pid t = (v, t) ∧
    (¬ (cmd.take 3 = "del".toList ∧ v = -1) → token_last K cmd handler tok pid t = t) ∧
    (v ≠ -1 → ',' ∉ tok → NUL ∉ tok → 1 ≤ tok.length →
      device_write K pid t ("del ".toList ++ tok) ("del ".toList ++ tok).length
        = Outcome.done ((("del ".toList ++ tok).length : Int), t)) := by
  have hstep : token_step K handler tok pid t = (v, t) := by
    rw [token_step_of_parse K handler tok v pid t hparse, hdead]
  have hlast : ∀ (c : List Char) (h : Table → pid_t → Int × Table),
      ¬ (c.take 3 = "del".toList ∧ v = -1) → token_last K c h tok pid t = t := by
    intro c h hnot
    simp only [token_last, hparse, Option.getD_some, hdead, hnot, if_false]
  refine ⟨hstep, hlast cmd handler, fun hv hc h0 hl => ?_⟩
  have hw := device_write_del_tokens K pid t [tok] (by simp)
    (by intro x hx; simp only [List.mem_singleton] at hx; rw [hx]; exact ⟨hc, h0⟩)
    (by
      simp only [join_commas, List.length_append]
      have : ("del ".toList).length = 4 := rfl
      omega)
  simp only [join_commas, run_tokens] at hw
  rw [hw, hlast "del".toList unhide_process (fun h => hv h.2)]

/-- C16, evaluated: 100 is hidden and names no task; after `del 100` it is still
hidden. -/
theorem C16_dead_token_witness :
    device_write (kernel_with procs_example) 0
        (table_of (kernel_with procs_example) [100, 200]) "del 100".toList 7
      = Outcome.done (7, table_of (kernel_with procs_example) [100, 200]) ∧
    is_hidden_proc (table_of (kernel_with procs_example) [100, 200]) 100 = true :=
  ⟨(C16_dead_token (kernel_with procs_example) "del".toList unhide_process "100".toList
      100 0 (table_of (kernel_with procs_example) [100, 200]) (by decide) (by decide)).2.2
      (by decide) (by decide) (by decide) (by decide),
   by decide⟩

/-- C19: for every list of tokens that `kstrtol` parses and every process table, the
accepted write `add L` on the empty registry followed by the write `del L` with the same
list and the same process table returns the length both times and ends with an empty
registry. -/
theorem C19_add_del_round_trip (K : Kernel) (pid0 pid1 : Int)
    (es : List (List Char × Int)) (hne : es ≠ [])
    (hes : ∀ e ∈ es, ',' ∉ e.1 ∧ NUL ∉ e.1 ∧ K.kstrtol e.1 = some e.2)
    (hlen : 1 ≤ (join_commas (es.map Prod.fst)).length) :
    ∃ t1 t2,
      device_write K pid0 hash_init ("add ".toList ++ join_commas (es.map Prod.fst))
          ("add ".toList ++ join_commas (es.map Prod.fst)).length
        = Outcome.done ((("add ".toList ++ join_commas (es.map Prod.fst)).length : Int), t1) ∧
      device_write K pid1 t1 ("del ".toList ++ join_commas (es.map Prod.fst))
          ("del ".toList ++ join_commas (es.map Prod.fst)).length
        = Outcome.done ((("del ".toList ++ join_commas (es.map Prod.fst)).length : Int), t2) ∧
      hash_for_each t2 = [] ∧ hash_empty t2 = true := by
  have htoks : es.map Prod.fst ≠ [] := by simpa using hne
  have hall : ∀ tok ∈ es.map Prod.fst, ',' ∉ tok ∧ NUL ∉ tok := by
    intro tok htok
    obtain ⟨e, he, rfl⟩ := List.mem_map.mp htok
    exact ⟨(hes e he).1, (hes e he).2.1⟩
  have hparse : ∀ e ∈ es, K.kstrtol e.1 = some e.2 := fun e he => (hes e he).2.2
  have hadd := device_write_add_tokens K pid0 hash_init _ htoks hall
    (by simp only [List.length_append]; have : ("add ".toList).length = 4 := rfl; omega)
  have hdel := device_write_del_tokens K pid1
    (run_tokens K "add".toList (hide_process K) (es.map Prod.fst) pid0 hash_init) _ htoks
    hall
    (by simp only [List.length_append]; have : ("del ".toList).length = 4 := rfl; omega)
  have hnil : hash_for_each (run_tokens K "del".toList unhide_process (es.map Prod.fst) pid1
      (run_tokens K "add".toList (hide_process K) (es.map Prod.fst) pid0 hash_init))
        = [] := by
    rw [List.eq_nil_iff_forall_not_mem]
    intro x hx
    rw [run_tokens_values K _ _ es pid1 _ hparse] at hx
    have h1 := mem_run_values_unhide K _ x _ _ hx
    have h2 := h1.1
    rw [run_tokens_add, mem_foldl_token_step_hide K x es pid0 hash_init hparse,
      hash_for_each_hash_init] at h2
    rcases h2 with h2 | ⟨e, he, tsk, htsk, h3⟩
    · simp at h2
    · have h4 := h1.2 e.2 (List.mem_map.mpr ⟨e, he, rfl⟩) tsk htsk
      rcases h3 with h3 | h3
      · exact h4.1 h3
      · exact h4.2 h3
  exact ⟨_, _, hadd, hdel, hnil, (hash_empty_iff _).mpr hnil⟩

/-- C19, evaluated: `add 5,9,13` and then `del 5,9,13`, with 5, 9 and 13 live and 2 the
parent of 9, end with nothing hidden. -/
theorem C19_add_del_round_trip_witness :
    ∃ t1 t2,
      device_write (kernel_with procs_example) 0 hash_init "add 5,9,13".toList 10
        = Outcome.done (10, t1) ∧
      device_write (kernel_with procs_example) 0 t1 "del 5,9,13".toList 10
        = Outcome.done (10, t2) ∧
      hash_for_each t2 = [] := by
  obtain ⟨t1, t2, h1, h2, h3, _⟩ := C19_add_del_round_trip (kernel_with procs_example) 0 0
    [("5".toList, 5), ("9".toList, 9), ("13".toList, 13)] (by decide) (by decide)
    (by decide)
  exact ⟨t1, t2, h1, h2, h3⟩

/-! ## Claims on the size of a line -/

theorem length_toDigitsCore (fuel : Nat) :
    ∀ (n : Nat) (ds : List Char), n < fuel →
      (Nat.toDigitsCore 10 fuel n ds).length = ds.length + Nat.log 10 n + 1 := by
  induction fuel with
  | zero => intro n ds h; omega
  | succ fuel ih =>
    intro n ds h
    unfold Nat.toDigitsCore
    by_cases h0 : n / 10 = 0
    · have hn : n < 10 := by omega
      simp only [h0, if_true, List.length_cons, Nat.log_of_lt hn]
    · have hn : 10 ≤ n := by omega
      have hlt : n / 10 < fuel := by omega
      simp only [h0, if_false]
      rw [ih (n / 10) _ hlt, Nat.log_of_one_lt_of_le (by decide) hn, List.length_cons]
      omega

theorem length_toDigits (n : Nat) : (Nat.toDigits 10 n).length = Nat.log 10 n + 1 := by
  unfold Nat.toDigits
  rw [length_toDigitsCore (n + 1) n [] (Nat.lt_succ_self n)]
  simp

/-- The decimal text of a natural number has at most `k` characters exactly when the
number is below `10 ^ k`, for `k` at least 1. -/
theorem length_toDigits_le_iff (n k : Nat) (hk : 1 ≤ k) :
    (Nat.toDigits 10 n).length ≤ k ↔ n < 10 ^ k := by
  rw [length_toDigits]
  by_cases hn : n = 0
  · subst hn
    have hpos : 0 < 10 ^ k := Nat.pow_pos (by decide)
    simp only [Nat.log_zero_right]
    constructor
    · intro _; exact hpos
    · intro _; omega
  · rw [Nat.lt_pow_iff_log_lt (by decide) hn]
    omega

theorem length_put_dec_le_six_iff (id : Int) :
    (put_dec id).length ≤ 6 ↔ (-99999 ≤ id ∧ id ≤ 999999) := by
  unfold put_dec
  by_cases hneg : id < 0
  · rw [if_pos hneg, List.length_cons]
    have h5 := length_toDigits_le_iff id.natAbs 5 (by decide)
    have h10 : (10 : Nat) ^ 5 = 100000 := by decide
    rw [h10] at h5
    constructor
    · intro h
      have := h5.mp (by omega)
      omega
    · intro h
      have := h5.mpr (by omega)
      omega
  · rw [if_neg hneg]
    have h6 := length_toDigits_le_iff id.toNat 6 (by decide)
    have h10 : (10 : Nat) ^ 6 = 1000000 := by decide
    rw [h10] at h6
    constructor
    · intro h
      have := h6.mp h
      omega
    · intro h
      exact h6.mpr (by omega)

/-- C17: `MAX_MESSAGE_SIZE` is 13, and for every id the line `pid: <id>` with its newline
and its terminator fits into 13 bytes exactly when the id lies between -99999 and 999999,
that is when its decimal text has at most 6 characters; for an id from 1000000 on, or
from -100000 down, the line needs more than 13 bytes. -/
theorem C17_message_fits (id : Int) :
    MAX_MESSAGE_SIZE = 13 ∧
    ((sprintf_pid id).length + 1 ≤ MAX_MESSAGE_SIZE ↔ (-99999 ≤ id ∧ id ≤ 999999)) ∧
    ((put_dec id).length ≤ 6 ↔ (-99999 ≤ id ∧ id ≤ 999999)) ∧
    ((1000000 ≤ id ∨ id ≤ -100000) → 13 < (sprintf_pid id).length + 1) := by
  have hmax : MAX_MESSAGE_SIZE = 13 := by decide
  have hlen : (sprintf_pid id).length = (put_dec id).length + 6 := by
    unfold sprintf_pid
    simp only [List.length_append, List.length_cons, List.length_nil]
    have : ("pid: ".toList).length = 5 := rfl
    omega
  have hiff := length_put_dec_le_six_iff id
  refine ⟨hmax, ?_, hiff, ?_⟩
  · rw [hmax, hlen, ← hiff]; omega
  · intro h
    rw [hlen]
    have hnot : ¬ (put_dec id).length ≤ 6 := by
      rw [hiff]; omega
    omega

/-- C18: at offset 0 the bytes `device_read` copies, its return value and the offset it
leaves are the same for every requested length (and so is the result at any other
offset); with 100 and 200 hidden and `len = 1` it copies and returns 18 bytes. -/
theorem C18_device_read_ignores_len :
    (∀ (t : Table) (len1 len2 : Nat) (offset : Int),
      device_read t len1 offset = device_read t len2 offset) ∧
    device_read (table_of (kernel_with procs_example) [100, 200]) 1 0
      = some (18, "pid: 100\npid: 200\n".toList, 18) ∧
    (1 : Int) < 18 ∧ 1 < ("pid: 100\npid: 200\n".toList).length :=
  ⟨fun _ _ _ _ => rfl, by decide, by decide, by decide⟩

end HideProc
